import Mathlib

/-!
A shallow embedding of the EvoMelody melody-evolution program
(models.py, operations.py, fitness.py, algorithm.py) together with
proofs about the claims of its specification.

Conventions of the embedding:
* Python `int` becomes `ℤ` (or `ℕ` for sizes and counters that the
  program only ever uses non-negatively), Python `float` becomes `ℚ`
  (every float the program manipulates is produced from dyadic literals
  such as 0.5, 1, 2, 4 and exact sums/differences thereof, so the
  rational semantics agrees with the float semantics on all quantities
  the claims are about).
* Python's single shared pseudo-random generator becomes an explicit
  stream `f : ℕ → ℕ` together with a position counter `k : ℕ` that is
  threaded through every random-consuming function in call order.
  `random.choice(l)` is `l.getD (f k % l.length) default`,
  `random.randint(a, b)` is `a + f k % (b - a + 1)`, and
  `random.random()` is `(f k % 2 ^ 53) / 2 ^ 53` (CPython's
  `random.random` returns exactly `getrandbits(53) / 2 ^ 53`).
  Every possible outcome of the Python generator is realized by some
  stream, and every stream realizes a possible outcome shape.
* `while` loops become fuel-based structural recursions; each loop gets
  fuel that provably dominates the number of iterations the Python loop
  performs, so the embedded function computes the loop's result.
* Code that can raise (`random.sample` on a short population, `max` of
  an empty list, out-of-range elite indexing, division by zero) returns
  `Option`, with `none` for the raising run.
* Python `//` and `%` on integers are `Int.ediv` / `Int.emod` (they
  agree with Python's floor division and sign-of-divisor remainder for
  the positive divisors used here).
-/

/- The kernel freely unfolds the rational-number primitives; restoring
their default reducibility lets `decide` and `rfl` evaluate the embedded
program on concrete inputs. -/
attribute [local semireducible] Rat.add Rat.sub Rat.mul Rat.inv

set_option maxRecDepth 40000

namespace EvoMelody

/-! ### Data model (models.py) -/

/-- `Note` from models.py: octave, pitch (0 = rest, 1..12 = C..B),
duration in quarter-note units. -/
structure Note where
  octave : ℤ
  pitch : ℤ
  duration : ℚ
deriving DecidableEq

instance : Inhabited Note := ⟨⟨0, 0, 0⟩⟩

/-- `Melody` from models.py: a note list plus a cached fitness score
(0.0 on construction). -/
structure Melody where
  notes : List Note
  fitness : ℚ
deriving DecidableEq

instance : Inhabited Melody := ⟨⟨[], 0⟩⟩

/-- `Melody.total_duration`. -/
def totalDur (ns : List Note) : ℚ := (ns.map Note.duration).sum

/-- `Melody.copy`: `Note.copy` reproduces each note value, and the new
`Melody` starts with fitness 0.0. -/
def Melody.copy (m : Melody) : Melody := ⟨m.notes, 0⟩

/-! ### Random primitives (module `random`) -/

/-- `random.random()`: CPython returns `getrandbits(53) / 2 ** 53`. -/
def randFloat (f : ℕ → ℕ) (k : ℕ) : ℚ := ((f k % 2 ^ 53 : ℕ) : ℚ) / 2 ^ 53

/-! ### operations.py -/

/-- The quantized duration set `[0.5, 1, 2, 4]` used by mutation and by
`_adjust_melody_length`. -/
def durList : List ℚ := [1/2, 1, 2, 4]

/-- The `available_pitches` pool built inside `_adjust_melody_length`:
octave 3 restricted to pitches ≥ 6, octave 5 to pitches ≤ 8. -/
def adjustPitches : List (ℤ × ℤ) :=
  (List.range' 3 3).flatMap (fun octave =>
    (List.range' 1 12).filterMap (fun pitch =>
      if octave = 3 ∧ pitch < 6 then none
      else if octave = 5 ∧ 8 < pitch then none
      else some ((octave : ℤ), (pitch : ℤ))))

/-- Fuel dominating the iteration count of the extension `while` loop of
`_adjust_melody_length`: every appended duration is at least 1/2, so the
loop runs at most `⌈2 * (target - current)⌉` times. -/
def extendFuel (target : ℚ) (ns : List Note) : ℕ :=
  (⌈2 * (target - totalDur ns)⌉).toNat

/-- The `current < target` branch of `_adjust_melody_length`: repeatedly
append a random pitch from the pool with a random duration drawn from
the quantized values that still fit, stopping when the target is reached
or no quantized value fits the remainder. -/
def extendLoop (f : ℕ → ℕ) (target : ℚ) :
    ℕ → List Note → ℕ → List Note × ℕ
  | 0, ns, k => (ns, k)
  | fuel + 1, ns, k =>
    if totalDur ns < target then
      let remaining := target - totalDur ns
      let valid := durList.filter (fun d => decide (d ≤ remaining))
      if valid.isEmpty then (ns, k)
      else
        let op := adjustPitches.getD (f k % adjustPitches.length) (3, 6)
        let d := valid.getD (f (k + 1) % valid.length) 1
        extendLoop f target fuel (ns ++ [⟨op.1, op.2, d⟩]) (k + 2)
    else (ns, k)

/-- The `current > target` branch of `_adjust_melody_length`: drop the
last note while the excess covers it, otherwise shrink the last note by
exactly the excess (and drop it if that leaves a non-positive duration).
The loop pops at most `ns.length` times, so `ns.length + 1` fuel covers
every iteration the Python loop performs. -/
def shrinkLoop (target : ℚ) : ℕ → List Note → List Note
  | 0, ns => ns
  | fuel + 1, ns =>
    if target < totalDur ns then
      if h : ns = [] then ns
      else
        let last := ns.getLast h
        let excess := totalDur ns - target
        if last.duration ≤ excess then
          shrinkLoop target fuel ns.dropLast
        else
          let ns' := ns.dropLast ++ [⟨last.octave, last.pitch, last.duration - excess⟩]
          if last.duration - excess ≤ 0 then
            shrinkLoop target fuel ns'.dropLast
          else
            shrinkLoop target fuel ns'
    else ns

/-- `_adjust_melody_length(melody, target)`. Returns the repaired melody
and the advanced random-stream position. -/
def _adjust_melody_length (f : ℕ → ℕ) (m : Melody) (target : ℚ) (k : ℕ) :
    Melody × ℕ :=
  let current := totalDur m.notes
  if current = target then (m, k)
  else if current < target then
    let r := extendLoop f target (extendFuel target m.notes) m.notes k
    (⟨r.1, 0⟩, r.2)
  else
    (⟨shrinkLoop target (m.notes.length + 1) m.notes, 0⟩, k)

/-- The pad loop of `generate_initial_population`: duplicate random seed
melodies (as copies) until the population reaches `size`. At most `size`
iterations happen, so `size` fuel covers the Python loop. -/
def padLoop (f : ℕ → ℕ) (loaded : List Melody) (size : ℕ) :
    ℕ → List Melody → ℕ → List Melody × ℕ
  | 0, acc, k => (acc, k)
  | fuel + 1, acc, k =>
    if acc.length < size ∧ loaded ≠ [] then
      padLoop f loaded size fuel
        (acc ++ [(loaded.getD (f k % loaded.length) default).copy]) (k + 1)
    else (acc, k)

/-- `generate_initial_population(size)` with the JSON corpus already
parsed into `data` (one note list per corpus item; the file reading and
JSON decoding are I/O adapters outside the claims): repair every corpus
melody to duration 16, then truncate or pad to `size`.
Python's `size is None or size <= 0` check becomes `size = 0` (the
program only ever passes non-negative sizes). -/
def generate_initial_population (f : ℕ → ℕ) (data : List (List Note))
    (size : ℕ) (k : ℕ) : List Melody × ℕ :=
  let r := data.foldl
    (fun (acc : List Melody × ℕ) item =>
      let a := _adjust_melody_length f ⟨item, 0⟩ 16 acc.2
      (acc.1 ++ [a.1], a.2))
    ([], k)
  let loaded := r.1
  if size = 0 then (loaded, r.2)
  else if size ≤ loaded.length then (loaded.take size, r.2)
  else padLoop f loaded size size loaded r.2

/-- `crossover(parent1, parent2)`: guard clause for parents shorter than
2 notes, otherwise one-point splice at independent random cut points
followed by length repair of both children. -/
def crossover (f : ℕ → ℕ) (p1 p2 : Melody) (k : ℕ) :
    Melody × Melody × ℕ :=
  if p1.notes.length < 2 ∨ p2.notes.length < 2 then (p1.copy, p2.copy, k)
  else
    let point1 := 1 + f k % (p1.notes.length - 1)
    let point2 := 1 + f (k + 1) % (p2.notes.length - 1)
    let c1 : Melody := ⟨p1.notes.take point1 ++ p2.notes.drop point2, 0⟩
    let c2 : Melody := ⟨p2.notes.take point2 ++ p1.notes.drop point1, 0⟩
    let a1 := _adjust_melody_length f c1 16 (k + 2)
    let a2 := _adjust_melody_length f c2 16 a1.2
    (a1.1, a2.1, a2.2)

/-- The per-note body of `mutate`, threading the stream position: with
probability `rate` apply exactly one of pitch perturbation (a rest is
promoted to a random pitch class), octave shift clamped to [3,5], or
duration resampling. Python draws the pitch delta before checking for a
rest, so the rest branch consumes one extra draw. -/
def mutateNotes (f : ℕ → ℕ) (rate : ℚ) :
    List Note → ℕ → List Note × ℕ
  | [], k => ([], k)
  | n :: rest, k =>
    if randFloat f k < rate then
      let k1 := k + 1
      if f k1 % 3 = 0 then
        let delta : ℤ := -2 + ((f (k1 + 1) % 5 : ℕ) : ℤ)
        if n.pitch = 0 then
          let p : ℤ := 1 + ((f (k1 + 2) % 12 : ℕ) : ℤ)
          let r := mutateNotes f rate rest (k1 + 3)
          (⟨n.octave, p, n.duration⟩ :: r.1, r.2)
        else
          let np := Int.emod (n.pitch - 1 + delta) 12 + 1
          let r := mutateNotes f rate rest (k1 + 2)
          (⟨n.octave, np, n.duration⟩ :: r.1, r.2)
      else if f k1 % 3 = 1 then
        let delta : ℤ := if f (k1 + 1) % 2 = 0 then -1 else 1
        let no := max 3 (min 5 (n.octave + delta))
        let r := mutateNotes f rate rest (k1 + 2)
        (⟨no, n.pitch, n.duration⟩ :: r.1, r.2)
      else
        let d := durList.getD (f (k1 + 1) % 4) 1
        let r := mutateNotes f rate rest (k1 + 2)
        (⟨n.octave, n.pitch, d⟩ :: r.1, r.2)
    else
      let r := mutateNotes f rate rest (k + 1)
      (n :: r.1, r.2)

/-- `mutate(melody, mutation_rate)`: mutate a copy note by note, then
repair the length. -/
def mutate (f : ℕ → ℕ) (rate : ℚ) (m : Melody) (k : ℕ) : Melody × ℕ :=
  let r := mutateNotes f rate m.notes k
  _adjust_melody_length f ⟨r.1, 0⟩ 16 r.2

/-- The per-note body of `transpose`: rests untouched; otherwise shift
the absolute pitch, recompute octave/pitch class with floor division and
non-negative remainder, then clamp the octave into [3,5]. -/
def transposeNote (s : ℤ) (n : Note) : Note :=
  if n.pitch = 0 then n
  else
    let base := n.pitch - 1
    let totalPitch := n.octave * 12 + base + s
    let octave0 := Int.ediv totalPitch 12
    let newClass := totalPitch % 12
    let octave := if octave0 < 3 then 3 else if 5 < octave0 then 5 else octave0
    ⟨octave, newClass + 1, n.duration⟩

/-- `transpose(melody, semitones)`. -/
def transpose (m : Melody) (s : ℤ) : Melody :=
  ⟨m.notes.map (transposeNote s), 0⟩

/-- The per-note body of `inversion` for indices ≥ 1: rests stay rests;
otherwise reflect the absolute pitch about the axis and clamp the octave
into [3,5]. -/
def invertNote (axis : ℤ) (src : Note) : Note :=
  if src.pitch = 0 then ⟨src.octave, 0, src.duration⟩
  else
    let originalPitch := src.octave * 12 + (src.pitch - 1)
    let interval := originalPitch - axis
    let newPitch := axis - interval
    let octave0 := Int.ediv newPitch 12
    let octave := if octave0 < 3 then 3 else if 5 < octave0 then 5 else octave0
    ⟨octave, newPitch % 12 + 1, src.duration⟩

/-- `inversion(melody)`: axis is the first non-rest note's absolute
pitch; note 0 is skipped by the loop (`if i == 0: continue`). -/
def inversion (m : Melody) : Melody :=
  if m.notes = [] then m.copy
  else
    match m.notes.find? (fun n => decide (n.pitch ≠ 0)) with
    | none => m.copy
    | some fn =>
      let axis := fn.octave * 12 + (fn.pitch - 1)
      ⟨(m.notes.zip (List.range m.notes.length)).map
        (fun p => if p.2 = 0 then p.1 else invertNote axis p.1), 0⟩

/-- `retrograde(melody)`: reverse the (copied) note list. -/
def retrograde (m : Melody) : Melody := ⟨m.notes.reverse, 0⟩

/-! ### fitness.py

Every heuristic of `FitnessEvaluator` is a pure function of the note
list. fitness.py's only transcendental operation, `np.log2` inside
`_evaluate_pitch_distribution`, is abstracted as a parameter
`lg : ℚ → ℚ`; no claim depends on its values, and the guard structure
around it is embedded exactly. -/

/-- The raw absolute value `octave * 12 + pitch` the interval heuristics
use (note: `pitch`, not `pitch - 1` — rests included). -/
def rawAbs (n : Note) : ℤ := n.octave * 12 + n.pitch

/-- `_evaluate_range`: count of distinct `(octave, pitch)` pairs. -/
def _evaluate_range (notes : List Note) : ℚ :=
  let numPitches := (notes.map (fun n => (n.octave, n.pitch))).toFinset.card
  if 8 ≤ numPitches ∧ numPitches ≤ 15 then 10
  else if numPitches < 8 then (numPitches : ℚ)
  else 10 - ((numPitches : ℚ) - 15) * (1/2)

/-- `_evaluate_large_leap`: penalize adjacent intervals above 7. -/
def _evaluate_large_leap (notes : List Note) : ℚ :=
  if notes.length < 2 then 10
  else
    let penalty := ((notes.zip notes.tail).map (fun p =>
      let interval := |rawAbs p.2 - rawAbs p.1|
      if 7 < interval then ((interval : ℚ) - 7) * (1/2) else 0)).sum
    max 0 (10 - penalty)

/-- The untransposed major scale `{0, 2, 4, 5, 7, 9, 11}`. -/
def majorScale : List ℤ := [0, 2, 4, 5, 7, 9, 11]

/-- The untransposed pentatonic scale `{0, 2, 4, 7, 9}`. -/
def pentatonicScale : List ℤ := [0, 2, 4, 7, 9]

/-- The per-root body of `_evaluate_scale_preference`: the raw `pitch`
field is tested for membership in the transposed (0-based) scale sets,
and each count is divided by the total note count. -/
def scaleMatchScore (notes : List Note) (root : ℤ) : ℚ :=
  let majorT := majorScale.map (fun p => Int.emod (p + root) 12)
  let pentT := pentatonicScale.map (fun p => Int.emod (p + root) 12)
  let majorCount := notes.countP (fun n => decide (n.pitch ∈ majorT))
  let pentCount := notes.countP (fun n => decide (n.pitch ∈ pentT))
  let majorFrac := (majorCount : ℚ) / notes.length
  let pentFrac := (pentCount : ℚ) / notes.length
  max (majorFrac * 10) (pentFrac * 12)

/-- `_evaluate_scale_preference`: running maximum over the 12 roots.
The divisions by `len(melody.notes)` use total (0-valued) division; the
`Option`-valued wrapper below records where Python would raise. -/
def _evaluate_scale_preference (notes : List Note) : ℚ :=
  (List.range 12).foldl
    (fun acc (root : ℕ) => max acc (scaleMatchScore notes (root : ℤ))) 0

/-- `_evaluate_scale_preference` with its fallibility made explicit:
Python computes `major_count / len(melody.notes)` with no guard, so a
zero-note melody raises `ZeroDivisionError` (`none`); in every other
case the result is the total-division value. -/
def _evaluate_scale_preference_checked (notes : List Note) : Option ℚ :=
  if notes.length = 0 then none else some (_evaluate_scale_preference notes)

/-- `_evaluate_rhythm_variety`: count of distinct duration values. -/
def _evaluate_rhythm_variety (notes : List Note) : ℚ :=
  let numDurations := (notes.map Note.duration).toFinset.card
  if 3 ≤ numDurations ∧ numDurations ≤ 4 then 10
  else if numDurations = 2 then 7
  else if numDurations = 1 then 3
  else 8

/-- The interval-delta windows of `_evaluate_motif_repetition`. -/
def motifsOf (notes : List Note) (motifLen : ℕ) : List (List ℤ) :=
  (List.range (notes.length - motifLen + 1)).map (fun i =>
    (List.range (motifLen - 1)).map (fun j =>
      rawAbs (notes.getD (i + j + 1) default) - rawAbs (notes.getD (i + j) default)))

/-- `_evaluate_motif_repetition`: maximum repeat count of any motif of
window length 2, 3 or 4. -/
def _evaluate_motif_repetition (notes : List Note) : ℚ :=
  if notes.length < 3 then 5
  else
    let maxRep := ([2, 3, 4] : List ℕ).foldl (fun acc motifLen =>
      if notes.length < motifLen then acc
      else
        let motifs := motifsOf notes motifLen
        max acc ((motifs.map (fun m => motifs.count m)).foldl max 0)) 0
    if maxRep = 2 then 10
    else if maxRep = 3 then 9
    else if 4 ≤ maxRep then 7
    else 5

/-- The per-root coverage score of `_evaluate_stable_ending`. -/
def stableRootScore (notes : List Note) (root : ℤ) : ℚ :=
  let majorT := majorScale.map (fun p => Int.emod (p + root) 12)
  let pentT := pentatonicScale.map (fun p => Int.emod (p + root) 12)
  let majorFrac := ((notes.countP (fun n => decide (n.pitch ∈ majorT)) : ℕ) : ℚ) / notes.length
  let pentFrac := ((notes.countP (fun n => decide (n.pitch ∈ pentT)) : ℕ) : ℚ) / notes.length
  let score := max majorFrac ((21/20) * pentFrac)
  let tonicBonus := ((notes.countP (fun n => decide (n.pitch = root)) : ℕ) : ℚ) / notes.length
  score + (1/50) * tonicBonus

/-- `_evaluate_stable_ending`: estimate the root by maximizing coverage
(first root wins ties), then score the last note's raw pitch against the
tonic, dominant, and mediants. -/
def _evaluate_stable_ending (notes : List Note) : ℚ :=
  if notes = [] then 0
  else
    let best := (List.range 12).foldl
      (fun (acc : ℚ × ℤ) (root : ℕ) =>
        let score := stableRootScore notes (root : ℤ)
        if acc.1 < score then (score, (root : ℤ)) else acc)
      (-1, 0)
    let lastPitch := (notes.getLast?.getD default).pitch
    if lastPitch = best.2 then 10
    else if lastPitch = Int.emod (best.2 + 7) 12 then 8
    else if lastPitch = Int.emod (best.2 + 4) 12 ∨ lastPitch = Int.emod (best.2 + 3) 12 then 13/2
    else 5

/-- `_evaluate_continuous_repeat`: penalize adjacent identical
`(octave, pitch)` pairs. -/
def _evaluate_continuous_repeat (notes : List Note) : ℚ :=
  if notes.length < 2 then 10
  else
    let c := (notes.zip notes.tail).countP
      (fun p => decide (p.1.octave = p.2.octave ∧ p.1.pitch = p.2.pitch))
    max 0 (10 - (c : ℚ) * (3/2))

/-- `_evaluate_harmony_hint`: compare the present 0-based pitch-class
set against every root's major and minor triads. -/
def _evaluate_harmony_hint (notes : List Note) : ℚ :=
  if notes.length < 3 then 5
  else
    let pitches := (notes.filter (fun n => decide (0 < n.pitch))).map
      (fun n => Int.emod (n.pitch - 1) 12)
    if pitches = [] then 5
    else
      let pitchSet := pitches.toFinset
      let maxScore := (List.range 12).foldl (fun acc (r : ℕ) =>
        let root : ℤ := (r : ℤ)
        let majorChord : Finset ℤ := {root, Int.emod (root + 4) 12, Int.emod (root + 7) 12}
        let minorChord : Finset ℤ := {root, Int.emod (root + 3) 12, Int.emod (root + 7) 12}
        let majorMatch := (pitchSet ∩ majorChord).card
        let minorMatch := (pitchSet ∩ minorChord).card
        if majorMatch = 3 then max acc 10
        else if minorMatch = 3 then max acc 10
        else if majorMatch = 2 ∨ minorMatch = 2 then max acc 7
        else acc) 0
      max maxScore 5

/-- `_evaluate_pitch_distribution`: Shannon entropy (via the abstracted
`lg`) of the rest-free 0-based pitch-class histogram. -/
def _evaluate_pitch_distribution (lg : ℚ → ℚ) (notes : List Note) : ℚ :=
  let pitches := (notes.filter (fun n => decide (0 < n.pitch))).map
    (fun n => Int.emod (n.pitch - 1) 12)
  if pitches = [] then 5
  else
    let total : ℚ := (pitches.length : ℚ)
    let probs := (List.range 12).map
      (fun (i : ℕ) => ((pitches.count ((i : ℤ)) : ℕ) : ℚ) / total)
    let entropy := -((probs.map (fun p => if 0 < p then p * lg p else 0)).sum)
    if entropy < 2 then 10
    else if entropy < 5/2 then 8
    else if entropy < 3 then 6
    else 4

/-- `_evaluate_smoothness`: fraction of stepwise (≤ 3 semitone)
adjacent motions. -/
def _evaluate_smoothness (notes : List Note) : ℚ :=
  if notes.length < 2 then 10
  else
    let stepwise := (notes.zip notes.tail).countP
      (fun p => decide (|rawAbs p.2 - rawAbs p.1| ≤ 3))
    let leaps := (notes.zip notes.tail).countP
      (fun p => decide (¬ |rawAbs p.2 - rawAbs p.1| ≤ 3))
    let total := stepwise + leaps
    if total = 0 then 5
    else
      let frac := (stepwise : ℚ) / (total : ℚ)
      if 3/5 ≤ frac ∧ frac ≤ 4/5 then 10
      else if 2/5 ≤ frac ∧ frac < 3/5 then 8
      else if 4/5 < frac ∧ frac ≤ 9/10 then 8
      else 6

/-- `_evaluate_very_large_leap`: penalize adjacent intervals above an
octave. -/
def _evaluate_very_large_leap (notes : List Note) : ℚ :=
  if notes.length < 2 then 10
  else
    let c := (notes.zip notes.tail).countP
      (fun p => decide (12 < |rawAbs p.2 - rawAbs p.1|))
    max 0 (10 - (c : ℚ) * 3)

/-- `_evaluate_note_density`: notes per 4-beat measure. -/
def _evaluate_note_density (notes : List Note) : ℚ :=
  let total := totalDur notes
  if total = 0 then 0
  else
    let numMeasures := total / 4
    if numMeasures < 1/10 then 0
    else
      let density := (notes.length : ℚ) / numMeasures
      if 4 ≤ density ∧ density ≤ 12 then 10
      else if density < 4 then density * (5/2)
      else max 0 (10 - (density - 12) * 1)

/-- Python's `round` (banker's rounding, half to even). -/
def pyRound (x : ℚ) : ℤ :=
  let fl := ⌊x⌋
  let frac := x - fl
  if frac < 1/2 then fl
  else if 1/2 < frac then fl + 1
  else if Int.emod fl 2 = 0 then fl
  else fl + 1

/-- Python's `current_time % 4.0` on floats (sign-of-divisor fmod). -/
def pyFmod4 (x : ℚ) : ℚ := x - 4 * (⌊x / 4⌋ : ℤ)

/-- `_evaluate_beat_alignment`: walk the notes accumulating onset time,
scoring on-beat onsets and penalizing long off-beat runs. State is
`(currentTime, onBeatScore, consecutiveOffBeat, syncopationPenalty)`. -/
def _evaluate_beat_alignment (notes : List Note) : ℚ :=
  if notes = [] then 0
  else
    let st := notes.foldl
      (fun (s : ℚ × ℚ × ℕ × ℚ) note =>
        let measurePos := pyFmod4 s.1
        let r := pyRound measurePos
        let dist := min |measurePos - (r : ℚ)| |measurePos - (r : ℚ) - 4|
        if dist < 1/20 then
          let beatIdx := Int.emod r 4
          if beatIdx = 0 ∨ beatIdx = 2 then
            (s.1 + note.duration, s.2.1 + 2, 0, s.2.2.2)
          else
            (s.1 + note.duration, s.2.1 + 1, 0, s.2.2.2)
        else
          let c := s.2.2.1 + 1
          let pen := if 2 < c then s.2.2.2 + ((c : ℚ) - 2) * 1 else s.2.2.2
          (s.1 + note.duration, s.2.1, c, pen))
      (0, 0, 0, 0)
    let avgScore := st.2.1 / (notes.length : ℚ)
    let baseScore := (avgScore / 2) * 10
    max 0 (min 10 (baseScore - st.2.2.2))

/-- `FitnessEvaluator.evaluate`: the weighted total of the 13
sub-scores, with the weight table from `__init__`. -/
def evaluate (lg : ℚ → ℚ) (notes : List Note) : ℚ :=
  1 * _evaluate_range notes
  + (3/2) * _evaluate_large_leap notes
  + (6/5) * _evaluate_scale_preference notes
  + 1 * _evaluate_rhythm_variety notes
  + 2 * _evaluate_motif_repetition notes
  + (3/2) * _evaluate_stable_ending notes
  + 1 * _evaluate_continuous_repeat notes
  + 1 * _evaluate_harmony_hint notes
  + 1 * _evaluate_note_density notes
  + (9/10) * _evaluate_beat_alignment notes
  + (6/5) * _evaluate_pitch_distribution lg notes
  + (13/10) * _evaluate_smoothness notes
  + 1 * _evaluate_very_large_leap notes

/-- `FitnessEvaluator.evaluate` with its only fallible step made
explicit: of the 13 heuristics, only `_evaluate_scale_preference` can
divide by zero (every other division sits behind an emptiness or
zero-denominator guard in fitness.py), and it does so exactly when the
melody has no notes. -/
def evaluateChecked (lg : ℚ → ℚ) (notes : List Note) : Option ℚ :=
  match _evaluate_scale_preference_checked notes with
  | none => none
  | some _ => some (evaluate lg notes)

/-! ### algorithm.py -/

/-- The state of `GeneticAlgorithm`: the constructor parameters plus the
mutable `population`, `best_fitness_history` and `avg_fitness_history`
(the stateless `FitnessEvaluator` member carries no data). -/
structure GAState where
  populationSize : ℕ
  generations : ℕ
  mutationRate : ℚ
  eliteSize : ℕ
  population : List Melody
  bestHist : List ℚ
  avgHist : List ℚ
deriving DecidableEq

/-- `GeneticAlgorithm.__init__`: store the four parameters and start
with an empty population and empty histories. No validation of any kind
is performed. -/
def mkGA (ps gens : ℕ) (mr : ℚ) (es : ℕ) : GAState :=
  ⟨ps, gens, mr, es, [], [], []⟩

/-- Python's `max(tournament, key=lambda m: m.fitness)`: the first
element of maximal fitness (later elements replace only on strictly
greater key). -/
def pyMaxByFitness (a : Melody) (rest : List Melody) : Melody :=
  rest.foldl (fun best x => if best.fitness < x.fitness then x else best) a

/-- `GeneticAlgorithm._selection`: `random.sample(population, 3)`
(which raises `ValueError`, here `none`, when the population has fewer
than 3 members — sampling without replacement via successive index
removal) followed by the fitness maximum. -/
def _selection (f : ℕ → ℕ) (pop : List Melody) (k : ℕ) :
    Option (Melody × ℕ) :=
  if 3 ≤ pop.length then
    let i1 := f k % pop.length
    let a := pop.getD i1 default
    let rest1 := pop.eraseIdx i1
    let i2 := f (k + 1) % rest1.length
    let b := rest1.getD i2 default
    let rest2 := rest1.eraseIdx i2
    let i3 := f (k + 2) % rest2.length
    let c := rest2.getD i3 default
    some (pyMaxByFitness a [b, c], k + 3)
  else none

/-- The ordering `sorted(..., key=lambda m: m.fitness, reverse=True)`
sorts by. -/
def fitGE (a b : Melody) : Prop := b.fitness ≤ a.fitness

instance : DecidableRel fitGE := fun a b => inferInstanceAs (Decidable (_ ≤ _))

instance : IsTotal Melody fitGE := ⟨fun a b => le_total b.fitness a.fitness⟩

instance : IsTrans Melody fitGE := ⟨fun _ _ _ h1 h2 => le_trans h2 h1⟩

/-- One parent pair's offspring in `GeneticAlgorithm.evolve`: cross
over with probability 0.8 (else clone), mutate both children, and with
probability 0.1 apply one uniformly-chosen secondary operator
(transpose by a random offset in [-3,3], inversion, or retrograde) to
child 1 only. Returns (child1, child2, next stream position). -/
def offspringStep (f : ℕ → ℕ) (mr : ℚ) (p1 p2 : Melody) (k : ℕ) :
    Melody × Melody × ℕ :=
  let cr :=
    if randFloat f k < 8/10 then crossover f p1 p2 (k + 1)
    else (p1.copy, p2.copy, k + 1)
  let m1 := mutate f mr cr.1 cr.2.2
  let m2 := mutate f mr cr.2.1 m1.2
  if randFloat f m2.2 < 1/10 then
    if f (m2.2 + 1) % 3 = 0 then
      (transpose m1.1 (-3 + ((f (m2.2 + 2) % 7 : ℕ) : ℤ)), m2.1, m2.2 + 3)
    else if f (m2.2 + 1) % 3 = 1 then (inversion m1.1, m2.1, m2.2 + 2)
    else (retrograde m1.1, m2.1, m2.2 + 2)
  else (m1.1, m2.1, m2.2 + 1)

/-- The offspring `while` loop of `GeneticAlgorithm.evolve`: select two
parents, produce their two children, and append child 1 (and child 2
if room remains). Each iteration grows the accumulator, so
`populationSize` fuel covers every iteration the Python loop
performs. -/
def offspringLoop (f : ℕ → ℕ) (ps : ℕ) (mr : ℚ) (pop : List Melody) :
    ℕ → List Melody → ℕ → Option (List Melody × ℕ)
  | 0, acc, k => some (acc, k)
  | fuel + 1, acc, k =>
    if acc.length < ps then
      (_selection f pop k).bind (fun s1 =>
        (_selection f pop s1.2).bind (fun s2 =>
          let c := offspringStep f mr s1.1 s2.1 s2.2
          let acc1 := acc ++ [c.1]
          let acc2 := if acc1.length < ps then acc1 ++ [c.2.1] else acc1
          offspringLoop f ps mr pop fuel acc2 c.2.2))
    else some (acc, k)

/-- `GeneticAlgorithm.evolve`: stable-sort by fitness descending, copy
the top `eliteSize` individuals (`none` on the `IndexError` raised when
`eliteSize` exceeds the population), produce offspring, truncate to
`populationSize`, and re-evaluate every individual's fitness.
`List.insertionSort` is the stable sort, which agrees with Python's
(also stable) `sorted`. -/
def evolve (lg : ℚ → ℚ) (f : ℕ → ℕ) (st : GAState) (k : ℕ) :
    Option (GAState × ℕ) :=
  let sorted := List.insertionSort fitGE st.population
  if st.eliteSize ≤ sorted.length then
    let elites := (sorted.take st.eliteSize).map Melody.copy
    (offspringLoop f st.populationSize st.mutationRate st.population
        st.populationSize elites k).bind (fun r =>
      let pop' := (r.1.take st.populationSize).map
        (fun m => ⟨m.notes, evaluate lg m.notes⟩)
      some ({ st with population := pop' }, r.2))
  else none

/-- Python's `max` on a list of floats (`ValueError`, here `none`, on an
empty list). -/
def pyListMax : List ℚ → Option ℚ
  | [] => none
  | x :: xs => some (xs.foldl max x)

/-- The generation loop of `GeneticAlgorithm.run`: one `evolve` per
generation, recording best and average fitness. -/
def runLoop (lg : ℚ → ℚ) (f : ℕ → ℕ) :
    ℕ → GAState → ℕ → Option (GAState × ℕ)
  | 0, st, k => some (st, k)
  | g + 1, st, k =>
    (evolve lg f st k).bind (fun r =>
      (pyListMax (r.1.population.map Melody.fitness)).bind (fun best =>
        let fits := r.1.population.map Melody.fitness
        let avg := fits.sum / (fits.length : ℚ)
        runLoop lg f g
          { r.1 with
            bestHist := r.1.bestHist ++ [best]
            avgHist := r.1.avgHist ++ [avg] } r.2))

/-- `GeneticAlgorithm.run`: `generations` evolution steps. -/
def runGA (lg : ℚ → ℚ) (f : ℕ → ℕ) (st : GAState) (k : ℕ) :
    Option (GAState × ℕ) :=
  runLoop lg f st.generations st k

/-! ### Predicates and reference definitions used by the claims -/

/-- A duration that is an integer multiple of 0.5. -/
def HalfStep (q : ℚ) : Prop := ∃ z : ℤ, q = (z : ℚ) / 2

/-- Note well-formedness as used by claim C10: octave in [3,5], pitch
class in [0,12], duration a positive multiple of 0.5. -/
def WFNote (n : Note) : Prop :=
  3 ≤ n.octave ∧ n.octave ≤ 5 ∧ 0 ≤ n.pitch ∧ n.pitch ≤ 12 ∧
    0 < n.duration ∧ HalfStep n.duration

/-- The major scale as a set, for claim-level statements. -/
def majorSet : Finset ℤ := {0, 2, 4, 5, 7, 9, 11}

/-- The pentatonic scale as a set, for claim-level statements. -/
def pentatonicSet : Finset ℤ := {0, 2, 4, 7, 9}

/-- Modelled from the wording of claim C5 (not from the source): the
scale-preference score where "a note matches when its chromatic pitch
class (1..12 denoting C..B, rests excluded from matching) lies in the
major or pentatonic scale transposed to that root" — i.e. rests never
match and a pitched note matches through its 0-based chromatic class
`pitch - 1` — "and each ratio divides the match count by the number of
notes". -/
def spec_scale_preference (notes : List Note) : ℚ :=
  (List.range 12).foldl (fun acc (root : ℕ) =>
    let majorT := majorSet.image (fun p => Int.emod (p + (root : ℤ)) 12)
    let pentT := pentatonicSet.image (fun p => Int.emod (p + (root : ℤ)) 12)
    let majorCount := notes.countP
      (fun n => decide (n.pitch ≠ 0 ∧ Int.emod (n.pitch - 1) 12 ∈ majorT))
    let pentCount := notes.countP
      (fun n => decide (n.pitch ≠ 0 ∧ Int.emod (n.pitch - 1) 12 ∈ pentT))
    max acc (max ((majorCount : ℚ) / notes.length * 10)
      ((pentCount : ℚ) / notes.length * 12))) 0

/-- The all-zeros random stream, used for concrete instantiations. -/
def zeroStream : ℕ → ℕ := fun _ => 0

/-- A concrete stand-in for `np.log2`, used for concrete
instantiations (no claim depends on logarithm values). -/
def zeroLog : ℚ → ℚ := fun _ => 0

/-- A concrete three-individual population of length-16 melodies. -/
def demoPop : List Melody :=
  [⟨[⟨4, 1, 16⟩], 0⟩, ⟨[⟨4, 3, 16⟩], 0⟩, ⟨[⟨4, 5, 16⟩], 0⟩]

/-- A concrete freshly-constructed GA state over `demoPop`:
population size 3, one generation, mutation rate 0, elite size 1. -/
def demoStart : GAState := ⟨3, 1, 0, 1, demoPop, [], []⟩

/-! ### Basic lemmas -/

theorem getD_mod_mem {α : Type} [Inhabited α] (l : List α) (i : ℕ) (d : α)
    (h : l ≠ []) : l.getD (i % l.length) d ∈ l := by
  have hlen : 0 < l.length := List.length_pos.mpr h
  have hi : i % l.length < l.length := Nat.mod_lt _ hlen
  rw [List.getD_eq_getElem l d hi]
  exact List.getElem_mem hi

theorem totalDur_nil : totalDur [] = 0 := rfl

theorem totalDur_append (l1 l2 : List Note) :
    totalDur (l1 ++ l2) = totalDur l1 + totalDur l2 := by
  simp [totalDur]

theorem totalDur_concat (l : List Note) (n : Note) :
    totalDur (l ++ [n]) = totalDur l + n.duration := by
  simp [totalDur]

theorem totalDur_dropLast (ns : List Note) (h : ns ≠ []) :
    totalDur ns.dropLast + (ns.getLast h).duration = totalDur ns := by
  calc totalDur ns.dropLast + (ns.getLast h).duration
      = totalDur (ns.dropLast ++ [ns.getLast h]) := (totalDur_concat _ _).symm
    _ = totalDur ns := by rw [List.dropLast_append_getLast h]

theorem ne_nil_of_totalDur_pos {ns : List Note} (h : 0 < totalDur ns) :
    ns ≠ [] := by
  intro he
  rw [he, totalDur_nil] at h
  exact lt_irrefl 0 h

theorem halfStep_add {a b : ℚ} (ha : HalfStep a) (hb : HalfStep b) :
    HalfStep (a + b) := by
  obtain ⟨x, rfl⟩ := ha
  obtain ⟨y, rfl⟩ := hb
  exact ⟨x + y, by push_cast; ring⟩

theorem halfStep_sub {a b : ℚ} (ha : HalfStep a) (hb : HalfStep b) :
    HalfStep (a - b) := by
  obtain ⟨x, rfl⟩ := ha
  obtain ⟨y, rfl⟩ := hb
  exact ⟨x - y, by push_cast; ring⟩

theorem halfStep_sum {ns : List Note}
    (h : ∀ n ∈ ns, HalfStep n.duration) : HalfStep (totalDur ns) := by
  induction ns with
  | nil => exact ⟨0, by norm_num [totalDur_nil]⟩
  | cons x xs ih =>
    have hx : HalfStep x.duration := h x (List.mem_cons_self x xs)
    have hxs : HalfStep (totalDur xs) :=
      ih (fun n hn => h n (List.mem_cons_of_mem x hn))
    have : totalDur (x :: xs) = x.duration + totalDur xs := by simp [totalDur]
    rw [this]
    exact halfStep_add hx hxs

theorem halfStep_sixteen : HalfStep 16 := ⟨32, by norm_num⟩

theorem durList_facts : ∀ d ∈ durList, HalfStep d ∧ 1/2 ≤ d ∧ 0 < d := by
  intro d hd
  simp only [durList, List.mem_cons, List.not_mem_nil, or_false] at hd
  rcases hd with rfl | rfl | rfl | rfl
  · exact ⟨⟨1, by norm_num⟩, by norm_num, by norm_num⟩
  · exact ⟨⟨2, by norm_num⟩, by norm_num, by norm_num⟩
  · exact ⟨⟨4, by norm_num⟩, by norm_num, by norm_num⟩
  · exact ⟨⟨8, by norm_num⟩, by norm_num, by norm_num⟩

theorem halfStep_pos_le {q : ℚ} (h : HalfStep q) (hq : 0 < q) : 1/2 ≤ q := by
  obtain ⟨z, rfl⟩ := h
  have hz : 0 < z := by
    by_contra hz
    push_neg at hz
    have : (z : ℚ) ≤ 0 := by exact_mod_cast hz
    linarith
  have hz1 : (1 : ℤ) ≤ z := hz
  have : (1 : ℚ) ≤ (z : ℚ) := by exact_mod_cast hz1
  linarith

/-! ### Lemmas about the extension loop of `_adjust_melody_length` -/

theorem filter_valid_props {target : ℚ} {ns : List Note} {d : ℚ}
    (hd : d ∈ durList.filter (fun x => decide (x ≤ target - totalDur ns))) :
    HalfStep d ∧ 1/2 ≤ d ∧ 0 < d ∧ d ≤ target - totalDur ns := by
  rw [List.mem_filter] at hd
  obtain ⟨h1, h2⟩ := hd
  have h3 := durList_facts d h1
  exact ⟨h3.1, h3.2.1, h3.2.2, of_decide_eq_true h2⟩

theorem ceilFuel_lt {x d : ℚ} (hd : 1/2 ≤ d) (hx : 0 < x) :
    (⌈2 * (x - d)⌉).toNat < (⌈2 * x⌉).toNat := by
  have h1 : (2 : ℚ) * (x - d) ≤ 2 * x - 1 := by linarith
  have h2 : ⌈(2 : ℚ) * (x - d)⌉ ≤ ⌈2 * x - 1⌉ := Int.ceil_le_ceil h1
  have h3 : ⌈(2 : ℚ) * x - 1⌉ = ⌈2 * x⌉ - 1 := by
    have := Int.ceil_sub_int (2 * x) (1 : ℤ)
    simpa using this
  have h4 : 0 < ⌈(2 : ℚ) * x⌉ := Int.ceil_pos.mpr (by linarith)
  omega

theorem adjustPitches_facts :
    ∀ p ∈ adjustPitches, 3 ≤ p.1 ∧ p.1 ≤ 5 ∧ 1 ≤ p.2 ∧ p.2 ≤ 12 := by decide

theorem adjustPitches_ne_nil : adjustPitches ≠ [] := by decide

theorem extendLoop_le {f : ℕ → ℕ} {target : ℚ} :
    ∀ (fuel : ℕ) (ns : List Note) (k : ℕ), totalDur ns ≤ target →
      totalDur (extendLoop f target fuel ns k).1 ≤ target := by
  intro fuel
  induction fuel with
  | zero => intro ns k h; simpa [extendLoop] using h
  | succ fuel ih =>
    intro ns k h
    simp only [extendLoop]
    split_ifs with h1 h2
    · simpa using h
    · have hvne : durList.filter (fun x => decide (x ≤ target - totalDur ns)) ≠ [] := by
        intro he
        rw [he] at h2
        exact h2 rfl
      apply ih
      have hd := filter_valid_props (getD_mod_mem _ (f (k + 1)) 1 hvne)
      rw [totalDur_concat]
      have : totalDur ns +
          (durList.filter (fun x => decide (x ≤ target - totalDur ns))).getD
            (f (k + 1) % (durList.filter (fun x => decide (x ≤ target - totalDur ns))).length) 1
          ≤ totalDur ns + (target - totalDur ns) := by
        have := hd.2.2.2
        linarith
      simpa using this
    · simpa using h

theorem extendLoop_short {f : ℕ → ℕ} {target : ℚ} :
    ∀ (fuel : ℕ) (ns : List Note) (k : ℕ),
      (⌈2 * (target - totalDur ns)⌉).toNat ≤ fuel →
      totalDur (extendLoop f target fuel ns k).1 < target →
      target - totalDur (extendLoop f target fuel ns k).1 < 1/2 := by
  intro fuel
  induction fuel with
  | zero =>
    intro ns k hf hres
    exfalso
    simp only [extendLoop] at hres
    have : 0 < ⌈2 * (target - totalDur ns)⌉ := Int.ceil_pos.mpr (by linarith)
    omega
  | succ fuel ih =>
    intro ns k hf hres
    simp only [extendLoop] at hres ⊢
    split_ifs at hres ⊢ with h1 h2
    · -- no quantized value fits the remainder
      simp only at hres ⊢
      by_contra hge
      push_neg at hge
      have hmem : (1/2 : ℚ) ∈ durList.filter (fun x => decide (x ≤ target - totalDur ns)) := by
        rw [List.mem_filter]
        exact ⟨by simp [durList], by simpa using hge⟩
      rw [List.isEmpty_iff] at h2
      rw [h2] at hmem
      exact List.not_mem_nil _ hmem
    · -- recursive step
      have hvne : durList.filter (fun x => decide (x ≤ target - totalDur ns)) ≠ [] := by
        intro he
        rw [he] at h2
        exact h2 rfl
      have hd := filter_valid_props (getD_mod_mem _ (f (k + 1)) 1 hvne)
      apply ih _ _ _ hres
      have htc : totalDur (ns ++
          [⟨(adjustPitches.getD (f k % adjustPitches.length) (3, 6)).1,
            (adjustPitches.getD (f k % adjustPitches.length) (3, 6)).2,
            (durList.filter (fun x => decide (x ≤ target - totalDur ns))).getD
              (f (k + 1) % (durList.filter (fun x => decide (x ≤ target - totalDur ns))).length) 1⟩])
          = totalDur ns +
            (durList.filter (fun x => decide (x ≤ target - totalDur ns))).getD
              (f (k + 1) % (durList.filter (fun x => decide (x ≤ target - totalDur ns))).length) 1 := by
        rw [totalDur_concat]
      rw [htc]
      have hlt := ceilFuel_lt hd.2.1 (show 0 < target - totalDur ns by linarith)
      have harr : target - (totalDur ns +
          (durList.filter (fun x => decide (x ≤ target - totalDur ns))).getD
            (f (k + 1) % (durList.filter (fun x => decide (x ≤ target - totalDur ns))).length) 1)
          = (target - totalDur ns) -
            (durList.filter (fun x => decide (x ≤ target - totalDur ns))).getD
              (f (k + 1) % (durList.filter (fun x => decide (x ≤ target - totalDur ns))).length) 1 := by
        ring
      rw [harr]
      omega
    · exfalso
      simp only at hres
      exact h1 hres

theorem extendLoop_exact {f : ℕ → ℕ} {target : ℚ} :
    ∀ (fuel : ℕ) (ns : List Note) (k : ℕ),
      (⌈2 * (target - totalDur ns)⌉).toNat ≤ fuel →
      HalfStep (target - totalDur ns) → totalDur ns ≤ target →
      totalDur (extendLoop f target fuel ns k).1 = target := by
  intro fuel
  induction fuel with
  | zero =>
    intro ns k hf hh hle
    have hr : ¬ (0 < target - totalDur ns) := by
      intro hpos
      have : 0 < ⌈2 * (target - totalDur ns)⌉ := Int.ceil_pos.mpr (by linarith)
      omega
    push_neg at hr
    have : totalDur ns = target := by linarith
    simpa [extendLoop] using this
  | succ fuel ih =>
    intro ns k hf hh hle
    simp only [extendLoop]
    split_ifs with h1 h2
    · exfalso
      have hrem : 0 < target - totalDur ns := by linarith
      have hhalf : (1/2 : ℚ) ≤ target - totalDur ns := halfStep_pos_le hh hrem
      have hmem : (1/2 : ℚ) ∈ durList.filter (fun x => decide (x ≤ target - totalDur ns)) := by
        rw [List.mem_filter]
        exact ⟨by simp [durList], by simpa using hhalf⟩
      rw [List.isEmpty_iff] at h2
      rw [h2] at hmem
      exact List.not_mem_nil _ hmem
    · have hvne : durList.filter (fun x => decide (x ≤ target - totalDur ns)) ≠ [] := by
        intro he
        rw [he] at h2
        exact h2 rfl
      have hd := filter_valid_props (getD_mod_mem _ (f (k + 1)) 1 hvne)
      apply ih
      · have hlt := ceilFuel_lt hd.2.1 (show 0 < target - totalDur ns by linarith)
        have harr : target - totalDur (ns ++
            [⟨(adjustPitches.getD (f k % adjustPitches.length) (3, 6)).1,
              (adjustPitches.getD (f k % adjustPitches.length) (3, 6)).2,
              (durList.filter (fun x => decide (x ≤ target - totalDur ns))).getD
                (f (k + 1) % (durList.filter (fun x => decide (x ≤ target - totalDur ns))).length) 1⟩])
            = (target - totalDur ns) -
              (durList.filter (fun x => decide (x ≤ target - totalDur ns))).getD
                (f (k + 1) % (durList.filter (fun x => decide (x ≤ target - totalDur ns))).length) 1 := by
          rw [totalDur_concat]
          ring
        rw [harr]
        omega
      · have harr : target - totalDur (ns ++
            [⟨(adjustPitches.getD (f k % adjustPitches.length) (3, 6)).1,
              (adjustPitches.getD (f k % adjustPitches.length) (3, 6)).2,
              (durList.filter (fun x => decide (x ≤ target - totalDur ns))).getD
                (f (k + 1) % (durList.filter (fun x => decide (x ≤ target - totalDur ns))).length) 1⟩])
            = (target - totalDur ns) -
              (durList.filter (fun x => decide (x ≤ target - totalDur ns))).getD
                (f (k + 1) % (durList.filter (fun x => decide (x ≤ target - totalDur ns))).length) 1 := by
          rw [totalDur_concat]
          ring
        rw [show target - totalDur (ns ++
            [⟨(adjustPitches.getD (f k % adjustPitches.length) (3, 6)).1,
              (adjustPitches.getD (f k % adjustPitches.length) (3, 6)).2,
              (durList.filter (fun x => decide (x ≤ target - totalDur ns))).getD
                (f (k + 1) % (durList.filter (fun x => decide (x ≤ target - totalDur ns))).length) 1⟩])
            = (target - totalDur ns) -
              (durList.filter (fun x => decide (x ≤ target - totalDur ns))).getD
                (f (k + 1) % (durList.filter (fun x => decide (x ≤ target - totalDur ns))).length) 1 from harr]
        exact halfStep_sub hh hd.1
      · rw [totalDur_concat]
        have := hd.2.2.2
        simp only
        linarith
    · simp only
      have := not_lt.mp h1
      linarith

theorem extendLoop_stuck {f : ℕ → ℕ} {target : ℚ} {ns : List Note}
    (hrem : target - totalDur ns < 1/2) :
    ∀ (fuel : ℕ) (k : ℕ), extendLoop f target fuel ns k = (ns, k) := by
  intro fuel k
  cases fuel with
  | zero => rfl
  | succ fuel =>
    simp only [extendLoop]
    split_ifs with h1 h2
    · rfl
    · exfalso
      apply h2
      have : durList.filter (fun x => decide (x ≤ target - totalDur ns)) = [] := by
        rw [List.filter_eq_nil]
        intro d hd
        have := (durList_facts d hd).2.1
        simp only [decide_eq_true_eq]
        linarith
      rw [this]
      rfl
    · rfl

theorem extendLoop_wf {f : ℕ → ℕ} {target : ℚ} :
    ∀ (fuel : ℕ) (ns : List Note) (k : ℕ), (∀ n ∈ ns, WFNote n) →
      ∀ n ∈ (extendLoop f target fuel ns k).1, WFNote n := by
  intro fuel
  induction fuel with
  | zero => intro ns k h; simpa [extendLoop] using h
  | succ fuel ih =>
    intro ns k h
    simp only [extendLoop]
    split_ifs with h1 h2
    · simpa using h
    · have hvne : durList.filter (fun x => decide (x ≤ target - totalDur ns)) ≠ [] := by
        intro he
        rw [he] at h2
        exact h2 rfl
      apply ih
      intro n hn
      rw [List.mem_append] at hn
      rcases hn with hn | hn
      · exact h n hn
      · rw [List.mem_singleton] at hn
        subst hn
        have hop := adjustPitches_facts _
          (getD_mod_mem adjustPitches (f k) (3, 6) adjustPitches_ne_nil)
        have hd := filter_valid_props (getD_mod_mem _ (f (k + 1)) 1 hvne)
        exact ⟨hop.1, hop.2.1, le_trans zero_le_one hop.2.2.1, hop.2.2.2,
          hd.2.2.1, hd.1⟩
    · simpa using h

/-! ### Lemmas about the shrink loop of `_adjust_melody_length` -/

theorem shrinkLoop_stop {target : ℚ} {ns : List Note}
    (h : totalDur ns ≤ target) : ∀ fuel, shrinkLoop target fuel ns = ns := by
  intro fuel
  cases fuel with
  | zero => rfl
  | succ fuel =>
    simp only [shrinkLoop]
    rw [if_neg (not_lt.mpr h)]

theorem shrinkLoop_exact {target : ℚ} (h0 : 0 < target) :
    ∀ (fuel : ℕ) (ns : List Note), ns.length + 1 ≤ fuel →
      target ≤ totalDur ns → totalDur (shrinkLoop target fuel ns) = target := by
  intro fuel
  induction fuel with
  | zero => intro ns hf; exact absurd hf (by omega)
  | succ fuel ih =>
    intro ns hf hge
    rcases eq_or_lt_of_le hge with heq | hlt
    · rw [shrinkLoop_stop (le_of_eq heq.symm)]
      exact heq.symm
    · have hne : ns ≠ [] := ne_nil_of_totalDur_pos (lt_trans h0 hlt)
      have hlp : 0 < ns.length := List.length_pos.mpr hne
      simp only [shrinkLoop]
      rw [if_pos hlt, dif_neg hne]
      have hdl := totalDur_dropLast ns hne
      split_ifs with hpop hzero
      · -- the excess covers the last note: pop it
        apply ih
        · rw [List.length_dropLast]; omega
        · linarith
      · -- shrinking would leave duration ≤ 0: impossible here
        exfalso
        push_neg at hpop
        linarith
      · -- shrink the last note by exactly the excess
        have htot : totalDur (ns.dropLast ++
            [⟨(ns.getLast hne).octave, (ns.getLast hne).pitch,
              (ns.getLast hne).duration - (totalDur ns - target)⟩]) = target := by
          rw [totalDur_concat]
          simp only
          linarith
        rw [shrinkLoop_stop (le_of_eq htot)]
        exact htot

theorem shrinkLoop_wf {target : ℚ} (ht : HalfStep target) :
    ∀ (fuel : ℕ) (ns : List Note), (∀ n ∈ ns, WFNote n) →
      ∀ n ∈ shrinkLoop target fuel ns, WFNote n := by
  intro fuel
  induction fuel with
  | zero => intro ns h; simpa [shrinkLoop] using h
  | succ fuel ih =>
    intro ns h
    simp only [shrinkLoop]
    split_ifs with h1 h2 h3 h4
    · exact h
    · -- pop branch
      exact ih ns.dropLast
        (fun n hn => h n ((List.dropLast_sublist ns).subset hn))
    · -- shrink-then-pop branch (statically dead, but covered)
      intro n hn
      rw [List.dropLast_concat] at hn
      exact ih ns.dropLast
        (fun x hx => h x ((List.dropLast_sublist ns).subset hx)) n hn
    · -- shrink branch
      apply ih
      intro n hn
      rw [List.mem_append] at hn
      rcases hn with hn | hn
      · exact h n ((List.dropLast_sublist ns).subset hn)
      · rw [List.mem_singleton] at hn
        subst hn
        have hlast := h _ (List.getLast_mem h2)
        push_neg at h4
        refine ⟨hlast.1, hlast.2.1, hlast.2.2.1, hlast.2.2.2.1, h4, ?_⟩
        exact halfStep_sub hlast.2.2.2.2.2
          (halfStep_sub (halfStep_sum (fun x hx => (h x hx).2.2.2.2.2)) ht)
    · exact h

/-! ### Lemmas about `_adjust_melody_length` -/

theorem adjust_noop (f : ℕ → ℕ) (m : Melody) (k : ℕ)
    (h : totalDur m.notes = 16) : _adjust_melody_length f m 16 k = (m, k) := by
  simp only [_adjust_melody_length]
  rw [if_pos h]

theorem adjust_le (f : ℕ → ℕ) (m : Melody) (k : ℕ) :
    totalDur (_adjust_melody_length f m 16 k).1.notes ≤ 16 ∧
      (totalDur (_adjust_melody_length f m 16 k).1.notes < 16 →
        16 - totalDur (_adjust_melody_length f m 16 k).1.notes < 1/2) := by
  simp only [_adjust_melody_length]
  split_ifs with h1 h2
  · simp only
    constructor
    · exact le_of_eq h1
    · intro hlt
      rw [h1] at hlt
      exact absurd hlt (lt_irrefl _)
  · simp only
    refine ⟨extendLoop_le _ _ _ (le_of_lt h2), ?_⟩
    intro hlt
    exact extendLoop_short _ _ _ (le_refl _) hlt
  · simp only
    have h3 : 16 ≤ totalDur m.notes := le_of_not_lt h2
    have he := shrinkLoop_exact (show (0:ℚ) < 16 by norm_num)
      (m.notes.length + 1) m.notes (le_refl _) h3
    rw [he]
    norm_num

theorem adjust_exact (f : ℕ → ℕ) (m : Melody) (k : ℕ)
    (hh : ∀ n ∈ m.notes, HalfStep n.duration) :
    totalDur (_adjust_melody_length f m 16 k).1.notes = 16 := by
  simp only [_adjust_melody_length]
  split_ifs with h1 h2
  · exact h1
  · simp only
    exact extendLoop_exact _ _ _ (le_refl _)
      (halfStep_sub halfStep_sixteen (halfStep_sum hh)) (le_of_lt h2)
  · simp only
    exact shrinkLoop_exact (show (0:ℚ) < 16 by norm_num)
      (m.notes.length + 1) m.notes (le_refl _) (le_of_not_lt h2)

theorem adjust_wf (f : ℕ → ℕ) (m : Melody) (k : ℕ)
    (h : ∀ n ∈ m.notes, WFNote n) :
    ∀ n ∈ (_adjust_melody_length f m 16 k).1.notes, WFNote n := by
  simp only [_adjust_melody_length]
  split_ifs with h1 h2
  · exact h
  · simp only
    exact extendLoop_wf _ _ _ h
  · simp only
    exact shrinkLoop_wf halfStep_sixteen _ _ h

theorem adjust_idem (f f' : ℕ → ℕ) (m : Melody) (k k' : ℕ) :
    (_adjust_melody_length f' (_adjust_melody_length f m 16 k).1 16 k').1 =
      (_adjust_melody_length f m 16 k).1 := by
  by_cases h1 : totalDur m.notes = 16
  · rw [adjust_noop f m k h1]
    simp only
    rw [adjust_noop f' m k' h1]
  · by_cases h2 : totalDur m.notes < 16
    · have hr : (_adjust_melody_length f m 16 k).1 =
          ⟨(extendLoop f 16 (extendFuel 16 m.notes) m.notes k).1, 0⟩ := by
        simp only [_adjust_melody_length]
        rw [if_neg h1, if_pos h2]
      rw [hr]
      by_cases h3 : totalDur (extendLoop f 16 (extendFuel 16 m.notes) m.notes k).1 = 16
      · rw [adjust_noop f' _ k' h3]
      · have hle : totalDur (extendLoop f 16 (extendFuel 16 m.notes) m.notes k).1 ≤ 16 :=
          extendLoop_le _ _ _ (le_of_lt h2)
        have hlt : totalDur (extendLoop f 16 (extendFuel 16 m.notes) m.notes k).1 < 16 :=
          lt_of_le_of_ne hle h3
        have hshort : 16 - totalDur (extendLoop f 16 (extendFuel 16 m.notes) m.notes k).1 < 1/2 :=
          extendLoop_short _ _ _ (le_refl _) hlt
        simp only [_adjust_melody_length]
        rw [if_neg h3, if_pos hlt, extendLoop_stuck hshort]
    · have h4 : 16 ≤ totalDur m.notes := le_of_not_lt h2
      have hr : (_adjust_melody_length f m 16 k).1 =
          ⟨shrinkLoop 16 (m.notes.length + 1) m.notes, 0⟩ := by
        simp only [_adjust_melody_length]
        rw [if_neg h1, if_neg h2]
      rw [hr]
      have he : totalDur (shrinkLoop 16 (m.notes.length + 1) m.notes) = 16 :=
        shrinkLoop_exact (show (0:ℚ) < 16 by norm_num) _ _ (le_refl _) h4
      rw [adjust_noop f' _ k' he]

/-! ### Lemmas about `mutate`, `crossover`, and the initializer -/

theorem durList_getD_mem (j : ℕ) : durList.getD (j % 4) 1 ∈ durList := by
  have h : j % 4 < 4 := Nat.mod_lt _ (by norm_num)
  rcases (by omega : j % 4 = 0 ∨ j % 4 = 1 ∨ j % 4 = 2 ∨ j % 4 = 3) with
    h0 | h0 | h0 | h0 <;> rw [h0] <;> simp [durList]

theorem mutateNotes_half {f : ℕ → ℕ} {rate : ℚ} :
    ∀ (ns : List Note) (k : ℕ), (∀ n ∈ ns, HalfStep n.duration) →
      ∀ n ∈ (mutateNotes f rate ns k).1, HalfStep n.duration := by
  intro ns
  induction ns with
  | nil => intro k h n hn; simp [mutateNotes] at hn
  | cons x xs ih =>
    intro k h
    have hx : HalfStep x.duration := h x (List.mem_cons_self x xs)
    have hxs : ∀ n ∈ xs, HalfStep n.duration :=
      fun n hn => h n (List.mem_cons_of_mem x hn)
    simp only [mutateNotes]
    split_ifs with h1 h2 hp h3 hdel <;> intro n hn <;>
      rcases List.mem_cons.mp hn with rfl | hn
    · exact hx
    · exact ih _ hxs n hn
    · exact hx
    · exact ih _ hxs n hn
    · exact hx
    · exact ih _ hxs n hn
    · exact hx
    · exact ih _ hxs n hn
    · exact (durList_facts _ (durList_getD_mem (f (k + 1 + 1)))).1
    · exact ih _ hxs n hn
    · exact hx
    · exact ih _ hxs n hn

theorem mutateNotes_wf {f : ℕ → ℕ} {rate : ℚ} :
    ∀ (ns : List Note) (k : ℕ), (∀ n ∈ ns, WFNote n) →
      ∀ n ∈ (mutateNotes f rate ns k).1, WFNote n := by
  intro ns
  induction ns with
  | nil => intro k h n hn; simp [mutateNotes] at hn
  | cons x xs ih =>
    intro k h
    have hx : WFNote x := h x (List.mem_cons_self x xs)
    have hxs : ∀ n ∈ xs, WFNote n := fun n hn => h n (List.mem_cons_of_mem x hn)
    simp only [mutateNotes]
    split_ifs with h1 h2 hp h3 hdel <;> intro n hn <;>
      rcases List.mem_cons.mp hn with rfl | hn
    · -- rest promoted to a random pitch class in [1, 12]
      refine ⟨hx.1, hx.2.1, ?_, ?_, hx.2.2.2.2.1, hx.2.2.2.2.2⟩
      · dsimp only
        have : (0 : ℤ) ≤ ((f (k + 1 + 2) % 12 : ℕ) : ℤ) := Int.ofNat_nonneg _
        omega
      · dsimp only
        have hm : f (k + 1 + 2) % 12 < 12 := Nat.mod_lt _ (by norm_num)
        have h12 : ((f (k + 1 + 2) % 12 : ℕ) : ℤ) ≤ 11 := by
          exact_mod_cast Nat.le_of_lt_succ hm
        omega
    · exact ih _ hxs n hn
    · -- pitch wheel shift stays in [1, 12]
      refine ⟨hx.1, hx.2.1, ?_, ?_, hx.2.2.2.2.1, hx.2.2.2.2.2⟩
      · show (0:ℤ) ≤ (x.pitch - 1 + (-2 + ((f (k + 1 + 1) % 5 : ℕ) : ℤ))) % 12 + 1
        omega
      · show (x.pitch - 1 + (-2 + ((f (k + 1 + 1) % 5 : ℕ) : ℤ))) % 12 + 1 ≤ (12:ℤ)
        omega
    · exact ih _ hxs n hn
    · -- octave shift by -1, clamped to [3, 5]
      refine ⟨?_, ?_, hx.2.2.1, hx.2.2.2.1, hx.2.2.2.2.1, hx.2.2.2.2.2⟩
      · exact le_max_left 3 _
      · exact max_le (by norm_num) (min_le_left 5 _)
    · exact ih _ hxs n hn
    · -- octave shift by +1, clamped to [3, 5]
      refine ⟨?_, ?_, hx.2.2.1, hx.2.2.2.1, hx.2.2.2.2.1, hx.2.2.2.2.2⟩
      · exact le_max_left 3 _
      · exact max_le (by norm_num) (min_le_left 5 _)
    · exact ih _ hxs n hn
    · -- duration resampled from the quantized set
      have hd := durList_facts _ (durList_getD_mem (f (k + 1 + 1)))
      exact ⟨hx.1, hx.2.1, hx.2.2.1, hx.2.2.2.1, hd.2.2, hd.1⟩
    · exact ih _ hxs n hn
    · exact hx
    · exact ih _ hxs n hn

theorem mutate_total (f : ℕ → ℕ) (rate : ℚ) (m : Melody) (k : ℕ)
    (hh : ∀ n ∈ m.notes, HalfStep n.duration) :
    totalDur (mutate f rate m k).1.notes = 16 := by
  simp only [mutate]
  exact adjust_exact f _ _ (mutateNotes_half m.notes k hh)

theorem mutate_le (f : ℕ → ℕ) (rate : ℚ) (m : Melody) (k : ℕ) :
    totalDur (mutate f rate m k).1.notes ≤ 16 ∧
      (totalDur (mutate f rate m k).1.notes < 16 →
        16 - totalDur (mutate f rate m k).1.notes < 1/2) := by
  simp only [mutate]
  exact adjust_le f _ _

theorem mutate_wf (f : ℕ → ℕ) (rate : ℚ) (m : Melody) (k : ℕ)
    (h : ∀ n ∈ m.notes, WFNote n) :
    ∀ n ∈ (mutate f rate m k).1.notes, WFNote n := by
  simp only [mutate]
  exact adjust_wf f _ _ (mutateNotes_wf m.notes k h)

theorem crossover_total (f : ℕ → ℕ) (p1 p2 : Melody) (k : ℕ)
    (hl1 : 2 ≤ p1.notes.length) (hl2 : 2 ≤ p2.notes.length)
    (hh1 : ∀ n ∈ p1.notes, HalfStep n.duration)
    (hh2 : ∀ n ∈ p2.notes, HalfStep n.duration) :
    totalDur (crossover f p1 p2 k).1.notes = 16 ∧
      totalDur (crossover f p1 p2 k).2.1.notes = 16 := by
  have hg : ¬ (p1.notes.length < 2 ∨ p2.notes.length < 2) := by omega
  simp only [crossover]
  rw [if_neg hg]
  constructor
  · apply adjust_exact
    intro n hn
    simp only [List.mem_append] at hn
    rcases hn with hn | hn
    · exact hh1 n (List.take_subset _ _ hn)
    · exact hh2 n (List.drop_subset _ _ hn)
  · apply adjust_exact
    intro n hn
    simp only [List.mem_append] at hn
    rcases hn with hn | hn
    · exact hh2 n (List.take_subset _ _ hn)
    · exact hh1 n (List.drop_subset _ _ hn)

theorem crossover_le (f : ℕ → ℕ) (p1 p2 : Melody) (k : ℕ)
    (hl1 : 2 ≤ p1.notes.length) (hl2 : 2 ≤ p2.notes.length) :
    (totalDur (crossover f p1 p2 k).1.notes ≤ 16 ∧
      (totalDur (crossover f p1 p2 k).1.notes < 16 →
        16 - totalDur (crossover f p1 p2 k).1.notes < 1/2)) ∧
    (totalDur (crossover f p1 p2 k).2.1.notes ≤ 16 ∧
      (totalDur (crossover f p1 p2 k).2.1.notes < 16 →
        16 - totalDur (crossover f p1 p2 k).2.1.notes < 1/2)) := by
  have hg : ¬ (p1.notes.length < 2 ∨ p2.notes.length < 2) := by omega
  simp only [crossover]
  rw [if_neg hg]
  exact ⟨adjust_le f _ _, adjust_le f _ _⟩

theorem padLoop_mem {f : ℕ → ℕ} {loaded : List Melody} {size : ℕ} :
    ∀ (fuel : ℕ) (acc : List Melody) (k : ℕ),
      ∀ m ∈ (padLoop f loaded size fuel acc k).1,
        m ∈ acc ∨ ∃ l ∈ loaded, m = l.copy := by
  intro fuel
  induction fuel with
  | zero => intro acc k m hm; exact Or.inl hm
  | succ fuel ih =>
    intro acc k m hm
    simp only [padLoop] at hm
    split_ifs at hm with h1
    · rcases ih _ _ m hm with hin | hc
      · rw [List.mem_append] at hin
        rcases hin with hin | hin
        · exact Or.inl hin
        · rw [List.mem_singleton] at hin
          exact Or.inr ⟨_, getD_mod_mem loaded (f k) default h1.2, hin⟩
      · exact Or.inr hc
    · exact Or.inl hm

theorem init_mem {f : ℕ → ℕ} {data : List (List Note)} {size k : ℕ} :
    ∀ m ∈ (generate_initial_population f data size k).1,
      ∃ notes, m.notes = notes ∧
        (∃ item k', item ∈ data ∧
          notes = (_adjust_melody_length f ⟨item, 0⟩ 16 k').1.notes) := by
  have hfold : ∀ (ds : List (List Note)) (acc : List Melody × ℕ),
      (∀ m ∈ acc.1, ∃ item k', item ∈ data ∧
        m.notes = (_adjust_melody_length f ⟨item, 0⟩ 16 k').1.notes) →
      (∀ item ∈ ds, item ∈ data) →
      ∀ m ∈ (ds.foldl (fun (acc : List Melody × ℕ) item =>
          let a := _adjust_melody_length f ⟨item, 0⟩ 16 acc.2
          (acc.1 ++ [a.1], a.2)) acc).1,
        ∃ item k', item ∈ data ∧
          m.notes = (_adjust_melody_length f ⟨item, 0⟩ 16 k').1.notes := by
    intro ds
    induction ds with
    | nil => intro acc hacc _ m hm; exact hacc m hm
    | cons d ds ih =>
      intro acc hacc hds m hm
      simp only [List.foldl_cons] at hm
      refine ih _ ?_ (fun item hi => hds item (List.mem_cons_of_mem d hi)) m hm
      intro x hx
      rw [List.mem_append] at hx
      rcases hx with hx | hx
      · exact hacc x hx
      · rw [List.mem_singleton] at hx
        subst hx
        exact ⟨d, acc.2, hds d (List.mem_cons_self d ds), rfl⟩
  intro m hm
  simp only [generate_initial_population] at hm
  split_ifs at hm with h1 h2
  · obtain ⟨item, k', hi, he⟩ := hfold data ([], k) (by simp) (fun _ h => h) m hm
    exact ⟨m.notes, rfl, item, k', hi, he⟩
  · obtain ⟨item, k', hi, he⟩ := hfold data ([], k) (by simp) (fun _ h => h) m
      (List.take_subset _ _ hm)
    exact ⟨m.notes, rfl, item, k', hi, he⟩
  · rcases padLoop_mem _ _ _ m hm with hin | ⟨l, hl, rfl⟩
    · obtain ⟨item, k', hi, he⟩ := hfold data ([], k) (by simp) (fun _ h => h) m hin
      exact ⟨m.notes, rfl, item, k', hi, he⟩
    · obtain ⟨item, k', hi, he⟩ := hfold data ([], k) (by simp) (fun _ h => h) l hl
      exact ⟨l.notes, rfl, item, k', hi, he⟩

/-! ### Lemmas about `transpose` and `inversion` -/

theorem transposeNote_wf (s : ℤ) (n : Note) (h : WFNote n) :
    WFNote (transposeNote s n) := by
  have hpc1 : (0:ℤ) ≤ (n.octave * 12 + (n.pitch - 1) + s) % 12 + 1 := by omega
  have hpc2 : (n.octave * 12 + (n.pitch - 1) + s) % 12 + 1 ≤ (12:ℤ) := by omega
  simp only [transposeNote]
  split_ifs with hp h1 h2
  · exact h
  · exact ⟨by norm_num, by norm_num, hpc1, hpc2, h.2.2.2.2.1, h.2.2.2.2.2⟩
  · exact ⟨by norm_num, by norm_num, hpc1, hpc2, h.2.2.2.2.1, h.2.2.2.2.2⟩
  · refine ⟨?_, ?_, hpc1, hpc2, h.2.2.2.2.1, h.2.2.2.2.2⟩
    · show (3:ℤ) ≤ Int.ediv (n.octave * 12 + (n.pitch - 1) + s) 12
      omega
    · show Int.ediv (n.octave * 12 + (n.pitch - 1) + s) 12 ≤ (5:ℤ)
      omega

theorem transpose_wf (m : Melody) (s : ℤ)
    (h : ∀ n ∈ m.notes, WFNote n) : ∀ n ∈ (transpose m s).notes, WFNote n := by
  intro n hn
  simp only [transpose, List.mem_map] at hn
  obtain ⟨x, hx, rfl⟩ := hn
  exact transposeNote_wf s x (h x hx)

theorem invertNote_wf (axis : ℤ) (n : Note) (h : WFNote n) :
    WFNote (invertNote axis n) := by
  have hpc1 : (0:ℤ) ≤ (axis - (n.octave * 12 + (n.pitch - 1) - axis)) % 12 + 1 := by omega
  have hpc2 : (axis - (n.octave * 12 + (n.pitch - 1) - axis)) % 12 + 1 ≤ (12:ℤ) := by omega
  simp only [invertNote]
  split_ifs with hp h1 h2
  · exact ⟨h.1, h.2.1, le_refl 0, by norm_num, h.2.2.2.2.1, h.2.2.2.2.2⟩
  · exact ⟨by norm_num, by norm_num, hpc1, hpc2, h.2.2.2.2.1, h.2.2.2.2.2⟩
  · exact ⟨by norm_num, by norm_num, hpc1, hpc2, h.2.2.2.2.1, h.2.2.2.2.2⟩
  · refine ⟨?_, ?_, hpc1, hpc2, h.2.2.2.2.1, h.2.2.2.2.2⟩
    · show (3:ℤ) ≤ Int.ediv (axis - (n.octave * 12 + (n.pitch - 1) - axis)) 12
      omega
    · show Int.ediv (axis - (n.octave * 12 + (n.pitch - 1) - axis)) 12 ≤ (5:ℤ)
      omega

theorem inversion_wf (m : Melody)
    (h : ∀ n ∈ m.notes, WFNote n) : ∀ n ∈ (inversion m).notes, WFNote n := by
  simp only [inversion]
  split_ifs with he
  · simpa [Melody.copy, he] using h
  · cases hf : m.notes.find? (fun n => decide (n.pitch ≠ 0)) with
    | none => simpa [Melody.copy] using h
    | some fn =>
      simp only
      intro n hn
      simp only [List.mem_map] at hn
      obtain ⟨⟨x, i⟩, hx, rfl⟩ := hn
      have hxm : x ∈ m.notes := (List.mem_zip hx).1
      by_cases hi : i = 0
      · simp only [hi, if_pos rfl]
        exact h x hxm
      · rw [if_neg hi]
        exact invertNote_wf _ x (h x hxm)

theorem short_no_quantum {t : ℚ} (h : 16 - t < 1/2) :
    ∀ d ∈ durList, ¬ d ≤ 16 - t := by
  intro d hd hle
  have := (durList_facts d hd).2.1
  linarith

/-! ### Claim theorems about the operators and repair -/

/-- C6: retrograde is an involution: applying it twice restores the
exact note sequence, and a single application preserves the total
duration while fully reversing the note order. -/
theorem claim_C6 (m : Melody) :
    (retrograde (retrograde m)).notes = m.notes ∧
    totalDur (retrograde m).notes = totalDur m.notes ∧
    (retrograde m).notes = m.notes.reverse := by
  refine ⟨?_, ?_, rfl⟩
  · simp [retrograde]
  · simp only [retrograde, totalDur, List.map_reverse]
    exact List.sum_reverse _

/-- C3: length repair is idempotent: repairing a melody whose total
duration already equals the target 16 returns it unchanged, and
repairing a repaired melody returns it unchanged, for every outcome of
the random choices of both repairs. -/
theorem claim_C3 (f f' : ℕ → ℕ) (m : Melody) (k k' : ℕ) :
    (totalDur m.notes = 16 → (_adjust_melody_length f m 16 k).1 = m) ∧
    (_adjust_melody_length f' (_adjust_melody_length f m 16 k).1 16 k').1 =
      (_adjust_melody_length f m 16 k).1 := by
  constructor
  · intro h
    rw [adjust_noop f m k h]
  · exact adjust_idem f f' m k k'

/-- Witness for C3 at a concrete already-valid melody. -/
theorem claim_C3_witness :
    totalDur (⟨[⟨4, 1, 16⟩], 0⟩ : Melody).notes = 16 ∧
    (_adjust_melody_length zeroStream ⟨[⟨4, 1, 16⟩], 0⟩ 16 0).1 =
      (⟨[⟨4, 1, 16⟩], 0⟩ : Melody) ∧
    (_adjust_melody_length zeroStream
        (_adjust_melody_length zeroStream ⟨[⟨4, 1, 16⟩], 0⟩ 16 0).1 16 0).1 =
      (_adjust_melody_length zeroStream ⟨[⟨4, 1, 16⟩], 0⟩ 16 0).1 := by
  have ht : totalDur (⟨[⟨4, 1, 16⟩], 0⟩ : Melody).notes = 16 := by decide
  exact ⟨ht, (claim_C3 zeroStream zeroStream ⟨[⟨4, 1, 16⟩], 0⟩ 0 0).1 ht,
    (claim_C3 zeroStream zeroStream ⟨[⟨4, 1, 16⟩], 0⟩ 0 0).2⟩

/-- C10: every operator preserves note well-formedness: given a melody
whose notes have octave in [3,5], pitch class in [0,12] and duration a
positive multiple of 0.5, each of mutate (any rate), transpose (any
semitone offset), inversion, and length repair produces only notes with
the same bounds, and every non-rest result has pitch class in [1,12]. -/
theorem claim_C10 (f : ℕ → ℕ) (rate : ℚ) (s : ℤ) (m : Melody) (k : ℕ)
    (h : ∀ n ∈ m.notes, WFNote n) :
    (∀ n ∈ (mutate f rate m k).1.notes, WFNote n ∧ (n.pitch ≠ 0 → 1 ≤ n.pitch)) ∧
    (∀ n ∈ (transpose m s).notes, WFNote n ∧ (n.pitch ≠ 0 → 1 ≤ n.pitch)) ∧
    (∀ n ∈ (inversion m).notes, WFNote n ∧ (n.pitch ≠ 0 → 1 ≤ n.pitch)) ∧
    (∀ n ∈ (_adjust_melody_length f m 16 k).1.notes,
      WFNote n ∧ (n.pitch ≠ 0 → 1 ≤ n.pitch)) := by
  have hpc : ∀ x : Note, WFNote x → x.pitch ≠ 0 → 1 ≤ x.pitch := by
    intro x hx hne
    have := hx.2.2.1
    omega
  refine ⟨fun n hn => ?_, fun n hn => ?_, fun n hn => ?_, fun n hn => ?_⟩
  · have hw := mutate_wf f rate m k h n hn
    exact ⟨hw, hpc n hw⟩
  · have hw := transpose_wf m s h n hn
    exact ⟨hw, hpc n hw⟩
  · have hw := inversion_wf m h n hn
    exact ⟨hw, hpc n hw⟩
  · have hw := adjust_wf f m k h n hn
    exact ⟨hw, hpc n hw⟩

/-- Witness for C10 at a concrete well-formed melody. -/
theorem claim_C10_witness :
    (∀ n ∈ (⟨[⟨4, 1, 16⟩], 0⟩ : Melody).notes, WFNote n) ∧
    (∀ n ∈ (mutate zeroStream 0 ⟨[⟨4, 1, 16⟩], 0⟩ 0).1.notes,
      WFNote n ∧ (n.pitch ≠ 0 → 1 ≤ n.pitch)) ∧
    (∀ n ∈ (transpose ⟨[⟨4, 1, 16⟩], 0⟩ 2).notes,
      WFNote n ∧ (n.pitch ≠ 0 → 1 ≤ n.pitch)) := by
  have hwf : ∀ n ∈ (⟨[⟨4, 1, 16⟩], 0⟩ : Melody).notes, WFNote n := by
    intro n hn
    simp only [List.mem_singleton] at hn
    subst hn
    exact ⟨by norm_num, by norm_num, by norm_num, by norm_num, by norm_num,
      ⟨32, by norm_num⟩⟩
  have hc := claim_C10 zeroStream 0 2 ⟨[⟨4, 1, 16⟩], 0⟩ 0 hwf
  exact ⟨hwf, hc.1, hc.2.1⟩

/-- C1 as frozen is false: crossover of two single-note parents (whose
durations are positive multiples of 0.5) takes the `len < 2` guard
path, which returns verbatim copies without any repair call, so the
children's total duration (here 1) is not 16 — and is not even at
most 16 when the parents are longer than the target. -/
theorem claim_C1_counterexample :
    (∀ n ∈ (⟨[⟨4, 1, 1⟩], 0⟩ : Melody).notes, 0 < n.duration ∧ HalfStep n.duration) ∧
    totalDur (crossover zeroStream ⟨[⟨4, 1, 1⟩], 0⟩ ⟨[⟨4, 1, 1⟩], 0⟩ 0).1.notes ≠ 16 := by
  constructor
  · intro n hn
    simp only [List.mem_singleton] at hn
    subst hn
    exact ⟨by norm_num, ⟨2, by norm_num⟩⟩
  · decide

/-- C1 amended: the claim holds once crossover is restricted to parents
with at least two notes (the guard path returns unrepaired copies).
Parts 1–3: with all durations positive multiples of 0.5, the seed-based
initializer, crossover of two parents with ≥ 2 notes, and mutation all
produce melodies of total duration exactly 16. Parts 4–6: with merely
positive durations (not necessarily multiples of 0.5) the same three
producers yield totals at most 16, falling strictly short only when no
quantized duration fits the remaining budget. -/
theorem claim_C1_amended :
    (∀ (f : ℕ → ℕ) (data : List (List Note)) (size k : ℕ),
      (∀ item ∈ data, ∀ n ∈ item, 0 < n.duration ∧ HalfStep n.duration) →
      ∀ m ∈ (generate_initial_population f data size k).1,
        totalDur m.notes = 16) ∧
    (∀ (f : ℕ → ℕ) (p1 p2 : Melody) (k : ℕ),
      2 ≤ p1.notes.length → 2 ≤ p2.notes.length →
      (∀ n ∈ p1.notes, 0 < n.duration ∧ HalfStep n.duration) →
      (∀ n ∈ p2.notes, 0 < n.duration ∧ HalfStep n.duration) →
      totalDur (crossover f p1 p2 k).1.notes = 16 ∧
        totalDur (crossover f p1 p2 k).2.1.notes = 16) ∧
    (∀ (f : ℕ → ℕ) (rate : ℚ) (m : Melody) (k : ℕ),
      (∀ n ∈ m.notes, 0 < n.duration ∧ HalfStep n.duration) →
      totalDur (mutate f rate m k).1.notes = 16) ∧
    (∀ (f : ℕ → ℕ) (data : List (List Note)) (size k : ℕ),
      (∀ item ∈ data, ∀ n ∈ item, 0 < n.duration) →
      ∀ m ∈ (generate_initial_population f data size k).1,
        totalDur m.notes ≤ 16 ∧ (totalDur m.notes < 16 →
          ∀ d ∈ durList, ¬ d ≤ 16 - totalDur m.notes)) ∧
    (∀ (f : ℕ → ℕ) (p1 p2 : Melody) (k : ℕ),
      2 ≤ p1.notes.length → 2 ≤ p2.notes.length →
      (∀ n ∈ p1.notes, 0 < n.duration) → (∀ n ∈ p2.notes, 0 < n.duration) →
      (totalDur (crossover f p1 p2 k).1.notes ≤ 16 ∧
        (totalDur (crossover f p1 p2 k).1.notes < 16 →
          ∀ d ∈ durList, ¬ d ≤ 16 - totalDur (crossover f p1 p2 k).1.notes)) ∧
      (totalDur (crossover f p1 p2 k).2.1.notes ≤ 16 ∧
        (totalDur (crossover f p1 p2 k).2.1.notes < 16 →
          ∀ d ∈ durList, ¬ d ≤ 16 - totalDur (crossover f p1 p2 k).2.1.notes))) ∧
    (∀ (f : ℕ → ℕ) (rate : ℚ) (m : Melody) (k : ℕ),
      (∀ n ∈ m.notes, 0 < n.duration) →
      totalDur (mutate f rate m k).1.notes ≤ 16 ∧
        (totalDur (mutate f rate m k).1.notes < 16 →
          ∀ d ∈ durList, ¬ d ≤ 16 - totalDur (mutate f rate m k).1.notes)) := by
  refine ⟨?_, ?_, ?_, ?_, ?_, ?_⟩
  · intro f data size k hdur m hm
    obtain ⟨notes, hn, item, k', hitem, he⟩ := init_mem m hm
    rw [hn, he]
    exact adjust_exact f ⟨item, 0⟩ k' (fun n hni => (hdur item hitem n hni).2)
  · intro f p1 p2 k hl1 hl2 h1 h2
    exact crossover_total f p1 p2 k hl1 hl2
      (fun n hn => (h1 n hn).2) (fun n hn => (h2 n hn).2)
  · intro f rate m k h
    exact mutate_total f rate m k (fun n hn => (h n hn).2)
  · intro f data size k _ m hm
    obtain ⟨notes, hn, item, k', hitem, he⟩ := init_mem m hm
    rw [hn, he]
    have := adjust_le f ⟨item, 0⟩ k'
    exact ⟨this.1, fun hlt => short_no_quantum (this.2 hlt)⟩
  · intro f p1 p2 k hl1 hl2 _ _
    have := crossover_le f p1 p2 k hl1 hl2
    exact ⟨⟨this.1.1, fun hlt => short_no_quantum (this.1.2 hlt)⟩,
      ⟨this.2.1, fun hlt => short_no_quantum (this.2.2 hlt)⟩⟩
  · intro f rate m k _
    have := mutate_le f rate m k
    exact ⟨this.1, fun hlt => short_no_quantum (this.2 hlt)⟩

/-- Witness for the amended C1 at concrete inputs. -/
theorem claim_C1_amended_witness :
    (∀ n ∈ (⟨[⟨4, 1, 8⟩, ⟨4, 2, 8⟩], 0⟩ : Melody).notes,
      0 < n.duration ∧ HalfStep n.duration) ∧
    totalDur (mutate zeroStream 0 ⟨[⟨4, 1, 8⟩, ⟨4, 2, 8⟩], 0⟩ 0).1.notes = 16 ∧
    totalDur (crossover zeroStream ⟨[⟨4, 1, 8⟩, ⟨4, 2, 8⟩], 0⟩
      ⟨[⟨4, 1, 8⟩, ⟨4, 2, 8⟩], 0⟩ 0).1.notes = 16 := by
  have hdur : ∀ n ∈ (⟨[⟨4, 1, 8⟩, ⟨4, 2, 8⟩], 0⟩ : Melody).notes,
      0 < n.duration ∧ HalfStep n.duration := by
    intro n hn
    simp only [List.mem_cons, List.not_mem_nil, or_false] at hn
    rcases hn with rfl | rfl
    · exact ⟨by norm_num, ⟨16, by norm_num⟩⟩
    · exact ⟨by norm_num, ⟨16, by norm_num⟩⟩
  refine ⟨hdur, ?_, ?_⟩
  · exact claim_C1_amended.2.2.1 zeroStream 0 ⟨[⟨4, 1, 8⟩, ⟨4, 2, 8⟩], 0⟩ 0 hdur
  · exact (claim_C1_amended.2.1 zeroStream ⟨[⟨4, 1, 8⟩, ⟨4, 2, 8⟩], 0⟩
      ⟨[⟨4, 1, 8⟩, ⟨4, 2, 8⟩], 0⟩ 0 (by norm_num) (by norm_num) hdur hdur).1

/-! ### Claim theorems about the fitness evaluator -/

/-- C2 (code bug): on the empty melody the evaluator faults —
`_evaluate_scale_preference` computes `major_count / len(melody.notes)`
with no guard, so `evaluate` raises `ZeroDivisionError` (`none` here)
instead of returning a total with neutral defaults. A rest-only melody,
by contrast, evaluates without fault (though its scale-preference and
stable-ending scores are 12 and 10, not the claimed neutral 5, because
the raw rest pitch 0 participates in the 0-based scale matching). -/
theorem claim_C2_failing :
    evaluateChecked zeroLog [] = none ∧
    _evaluate_scale_preference_checked [] = none ∧
    evaluateChecked zeroLog [⟨4, 0, 16⟩] =
      some (evaluate zeroLog [⟨4, 0, 16⟩]) := by
  exact ⟨rfl, rfl, rfl⟩

theorem le_foldl_max_init (g : ℕ → ℚ) :
    ∀ (l : List ℕ) (a : ℚ), a ≤ l.foldl (fun x i => max x (g i)) a := by
  intro l
  induction l with
  | nil => intro a; exact le_refl a
  | cons i l ih =>
    intro a
    exact le_trans (le_max_left a (g i)) (ih (max a (g i)))

theorem foldl_max_le (g : ℕ → ℚ) :
    ∀ (l : List ℕ) (a c : ℚ), a ≤ c → (∀ i ∈ l, g i ≤ c) →
      l.foldl (fun x i => max x (g i)) a ≤ c := by
  intro l
  induction l with
  | nil => intro a c hac _; exact hac
  | cons i l ih =>
    intro a c hac hl
    exact ih _ c (max_le hac (hl i (List.mem_cons_self i l)))
      (fun j hj => hl j (List.mem_cons_of_mem i hj))

theorem le_foldl_max_of_mem (g : ℕ → ℚ) :
    ∀ (l : List ℕ) (a : ℚ) (i : ℕ), i ∈ l →
      g i ≤ l.foldl (fun x i => max x (g i)) a := by
  intro l
  induction l with
  | nil => intro a i hi; exact absurd hi (List.not_mem_nil i)
  | cons j l ih =>
    intro a i hi
    rcases List.mem_cons.mp hi with rfl | hi
    · exact le_trans (le_max_right a (g i)) (le_foldl_max_init g l _)
    · exact ih _ i hi

theorem foldl_max_range_sup (g : ℕ → ℚ) (hg : ∀ i, 0 ≤ g i) (n : ℕ)
    (hn : n ≠ 0) :
    (List.range n).foldl (fun a i => max a (g i)) 0 =
      (Finset.range n).sup' (Finset.nonempty_range_iff.mpr hn) g := by
  apply le_antisymm
  · apply foldl_max_le
    · have h0 : (0 : ℕ) ∈ Finset.range n :=
        Finset.mem_range.mpr (Nat.pos_of_ne_zero hn)
      exact le_trans (hg 0) (Finset.le_sup' g h0)
    · intro i hi
      exact Finset.le_sup' g (Finset.mem_range.mpr (List.mem_range.mp hi))
  · apply Finset.sup'_le
    intro i hi
    exact le_foldl_max_of_mem g _ 0 i (List.mem_range.mpr (Finset.mem_range.mp hi))

theorem mem_majorScale_iff (p : ℤ) : p ∈ majorScale ↔ p ∈ majorSet := by
  simp only [majorScale, majorSet, List.mem_cons, List.not_mem_nil, or_false,
    Finset.mem_insert, Finset.mem_singleton]

theorem mem_pentatonicScale_iff (p : ℤ) :
    p ∈ pentatonicScale ↔ p ∈ pentatonicSet := by
  simp only [pentatonicScale, pentatonicSet, List.mem_cons, List.not_mem_nil,
    or_false, Finset.mem_insert, Finset.mem_singleton]

theorem scaleMatchScore_nonneg (notes : List Note) (r : ℤ) :
    0 ≤ scaleMatchScore notes r := by
  simp only [scaleMatchScore]
  refine le_trans ?_ (le_max_left _ _)
  positivity

/-- C5 amended: for every nonempty melody the scale-preference
sub-score equals the maximum over the 12 roots of
max(majorRatio × 10, pentatonicRatio × 12), where a note matches
exactly when its raw `pitch` field (0 for a rest included, 1..12 for
pitched notes, never reduced modulo 12) is an element of the 0-based
transposed scale set {(s + root) mod 12}; consequently pitch class 12
(B) never matches and rests match whenever the set contains 0, and each
count is divided by the total note count. -/
theorem claim_C5_amended (notes : List Note) (h : notes ≠ []) :
    _evaluate_scale_preference notes =
      (Finset.range 12).sup'
        (Finset.nonempty_range_iff.mpr (by norm_num))
        (fun root => max
          (((notes.countP (fun n => decide (n.pitch ∈
              majorSet.image (fun p => Int.emod (p + (root : ℤ)) 12)))) : ℚ) /
            notes.length * 10)
          (((notes.countP (fun n => decide (n.pitch ∈
              pentatonicSet.image (fun p => Int.emod (p + (root : ℤ)) 12)))) : ℚ) /
            notes.length * 12)) := by
  rw [show _evaluate_scale_preference notes =
      (List.range 12).foldl
        (fun a (i : ℕ) => max a (scaleMatchScore notes (i : ℤ))) 0 from rfl]
  rw [foldl_max_range_sup (fun i => scaleMatchScore notes (i : ℤ))
    (fun i => scaleMatchScore_nonneg notes (i : ℤ)) 12 (by norm_num)]
  apply Finset.sup'_congr _ rfl
  intro root _
  simp only [scaleMatchScore]
  have hmaj : notes.countP (fun n => decide (n.pitch ∈
      majorScale.map (fun p => Int.emod (p + (root : ℤ)) 12))) =
      notes.countP (fun n => decide (n.pitch ∈
      majorSet.image (fun p => Int.emod (p + (root : ℤ)) 12))) := by
    apply List.countP_congr
    intro a _
    simp only [decide_eq_true_eq]
    constructor
    · intro ha
      obtain ⟨p, hp, he⟩ := List.mem_map.mp ha
      exact Finset.mem_image.mpr ⟨p, (mem_majorScale_iff p).mp hp, he⟩
    · intro ha
      obtain ⟨p, hp, he⟩ := Finset.mem_image.mp ha
      exact List.mem_map.mpr ⟨p, (mem_majorScale_iff p).mpr hp, he⟩
  have hpent : notes.countP (fun n => decide (n.pitch ∈
      pentatonicScale.map (fun p => Int.emod (p + (root : ℤ)) 12))) =
      notes.countP (fun n => decide (n.pitch ∈
      pentatonicSet.image (fun p => Int.emod (p + (root : ℤ)) 12))) := by
    apply List.countP_congr
    intro a _
    simp only [decide_eq_true_eq]
    constructor
    · intro ha
      obtain ⟨p, hp, he⟩ := List.mem_map.mp ha
      exact Finset.mem_image.mpr ⟨p, (mem_pentatonicScale_iff p).mp hp, he⟩
    · intro ha
      obtain ⟨p, hp, he⟩ := Finset.mem_image.mp ha
      exact List.mem_map.mpr ⟨p, (mem_pentatonicScale_iff p).mpr hp, he⟩
  rw [hmaj, hpent]

/-- Witness for the amended C5 at a concrete one-note melody. -/
theorem claim_C5_amended_witness :
    (([⟨4, 1, 1⟩] : List Note) ≠ []) ∧
    _evaluate_scale_preference [⟨4, 1, 1⟩] =
      (Finset.range 12).sup'
        (Finset.nonempty_range_iff.mpr (by norm_num))
        (fun root => max
          ((List.countP (fun n => decide (n.pitch ∈
              majorSet.image (fun p => Int.emod (p + (root : ℤ)) 12)))
              ([⟨4, 1, 1⟩] : List Note) : ℚ) /
            (List.length ([⟨4, 1, 1⟩] : List Note)) * 10)
          ((List.countP (fun n => decide (n.pitch ∈
              pentatonicSet.image (fun p => Int.emod (p + (root : ℤ)) 12)))
              ([⟨4, 1, 1⟩] : List Note) : ℚ) /
            (List.length ([⟨4, 1, 1⟩] : List Note)) * 12)) :=
  ⟨by simp, claim_C5_amended [⟨4, 1, 1⟩] (by simp)⟩

/-- C5 as frozen is false: on the single-note melody holding pitch
class 12 (a B), the source's matcher tests the raw value 12 against
0-based transposed sets (subsets of {0..11}), so nothing matches and
the score is 0, whereas the claim's matching through the chromatic
class `pitch - 1` yields 12. -/
theorem claim_C5_counterexample :
    _evaluate_scale_preference [⟨4, 12, 1⟩] ≠
      spec_scale_preference [⟨4, 12, 1⟩] := by decide

/-! ### Claim theorems about the algorithm layer -/

/-- C7 as frozen is false: `generate_initial_population` has no failure
path at all (no ConfigurationError exists anywhere in the program);
with an empty corpus and a requested size of 1 it simply returns the
empty population, consuming no randomness. -/
theorem claim_C7_counterexample :
    generate_initial_population zeroStream [] 1 0 = ([], 0) := rfl

/-- C7 amended: when the seed corpus is empty and the requested
population size is positive, the initializer returns an empty
population (the padding loop cannot run because `loaded` is empty);
no error of any kind is raised. -/
theorem claim_C7_amended (f : ℕ → ℕ) (size k : ℕ) (h : 0 < size) :
    generate_initial_population f [] size k = ([], k) := by
  cases size with
  | zero => exact absurd h (lt_irrefl 0)
  | succ s =>
    simp only [generate_initial_population, List.foldl_nil]
    rw [if_neg (Nat.succ_ne_zero s)]
    rw [if_neg (by simp : ¬ s + 1 ≤ List.length ([] : List Melody))]
    simp only [padLoop]
    rw [if_neg (by simp)]

/-- Witness for the amended C7. -/
theorem claim_C7_amended_witness :
    0 < 1 ∧ generate_initial_population zeroStream [] 1 0 = ([], 0) :=
  ⟨by norm_num, claim_C7_amended zeroStream 1 0 (by norm_num)⟩

/-- C8 as frozen is false: `GeneticAlgorithm.__init__` performs no
validation whatsoever — constructing with `populationSize = 0` (< 1)
and `eliteSize = 2 > populationSize` succeeds and stores the values
verbatim (no ConfigurationError exists anywhere in the program). -/
theorem claim_C8_counterexample :
    mkGA 0 100 (1/5) 2 = ⟨0, 100, 1/5, 2, [], [], []⟩ := rfl

/-- C8 amended: construction stores the four parameters without any
validation and cannot fail; invalid configurations instead surface as
failures during the run — e.g. tournament selection
(`random.sample(population, 3)`) fails whenever the population has
fewer than 3 members. -/
theorem claim_C8_amended :
    (∀ (ps gens : ℕ) (mr : ℚ) (es : ℕ),
      mkGA ps gens mr es = ⟨ps, gens, mr, es, [], [], []⟩) ∧
    (∀ (f : ℕ → ℕ) (pop : List Melody) (k : ℕ), pop.length < 3 →
      _selection f pop k = none) := by
  refine ⟨fun ps gens mr es => rfl, fun f pop k h => ?_⟩
  simp only [_selection]
  rw [if_neg (by omega)]

/-- Witness for the amended C8. -/
theorem claim_C8_amended_witness :
    mkGA 0 100 (1/5) 2 = ⟨0, 100, 1/5, 2, [], [], []⟩ ∧
    ([] : List Melody).length < 3 ∧ _selection zeroStream [] 0 = none :=
  ⟨claim_C8_amended.1 0 100 (1/5) 2, by norm_num,
    claim_C8_amended.2 zeroStream [] 0 (by norm_num)⟩

/-- C4: the evolution loop is deterministic in the random source: two
runs started from the same stream position, the same stream, and the
same state (configuration plus initial population) produce identical
populations at every generation, identical run results, and in
particular identical best-fitness histories. -/
theorem claim_C4 (lg : ℚ → ℚ) (f1 f2 : ℕ → ℕ) (st1 st2 : GAState)
    (k1 k2 : ℕ) (hf : f1 = f2) (hst : st1 = st2) (hk : k1 = k2) :
    (∀ g : ℕ, runLoop lg f1 g st1 k1 = runLoop lg f2 g st2 k2) ∧
    runGA lg f1 st1 k1 = runGA lg f2 st2 k2 ∧
    (∀ r1 r2, runGA lg f1 st1 k1 = some r1 → runGA lg f2 st2 k2 = some r2 →
      r1.1.bestHist = r2.1.bestHist ∧ r1.1.population = r2.1.population) := by
  subst hf
  subst hst
  subst hk
  refine ⟨fun g => rfl, rfl, ?_⟩
  intro r1 r2 h1 h2
  rw [h1] at h2
  injection h2 with h
  subst h
  exact ⟨rfl, rfl⟩

/-! ### Lemmas for the elitism-monotonicity claim -/

theorem le_foldl_qmax : ∀ (l : List ℚ) (a : ℚ), a ≤ l.foldl max a := by
  intro l
  induction l with
  | nil => intro a; exact le_refl a
  | cons x xs ih =>
    intro a
    exact le_trans (le_max_left a x) (ih (max a x))

theorem mem_le_foldl_qmax : ∀ (l : List ℚ) (a x : ℚ), x ∈ l →
    x ≤ l.foldl max a := by
  intro l
  induction l with
  | nil => intro a x hx; exact absurd hx (List.not_mem_nil x)
  | cons y ys ih =>
    intro a x hx
    rcases List.mem_cons.mp hx with rfl | hx
    · exact le_trans (le_max_right a x) (le_foldl_qmax ys (max a x))
    · exact ih _ x hx

theorem foldl_qmax_mem : ∀ (l : List ℚ) (a : ℚ), l.foldl max a ∈ a :: l := by
  intro l
  induction l with
  | nil => intro a; exact List.mem_singleton.mpr rfl
  | cons y ys ih =>
    intro a
    simp only [List.foldl_cons]
    have h := ih (max a y)
    rcases List.mem_cons.mp h with he | he
    · rw [he]
      rcases max_choice a y with hm | hm <;> rw [hm]
      · exact List.mem_cons_self _ _
      · exact List.mem_cons_of_mem _ (List.mem_cons_self _ _)
    · exact List.mem_cons_of_mem _ (List.mem_cons_of_mem _ he)

theorem pyListMax_mem {l : List ℚ} {b : ℚ} (h : pyListMax l = some b) :
    b ∈ l := by
  cases l with
  | nil => exact absurd h (by simp [pyListMax])
  | cons x xs =>
    simp only [pyListMax, Option.some.injEq] at h
    rw [← h]
    exact foldl_qmax_mem xs x

theorem pyListMax_ge {l : List ℚ} {b x : ℚ} (h : pyListMax l = some b)
    (hx : x ∈ l) : x ≤ b := by
  cases l with
  | nil => exact absurd hx (List.not_mem_nil x)
  | cons y ys =>
    simp only [pyListMax, Option.some.injEq] at h
    rw [← h]
    rcases List.mem_cons.mp hx with rfl | hx
    · exact le_foldl_qmax ys x
    · exact mem_le_foldl_qmax ys y x hx

theorem pyListMax_ne_nil {l : List ℚ} {b : ℚ} (h : pyListMax l = some b) :
    l ≠ [] := by
  intro he
  rw [he] at h
  exact absurd h (by simp [pyListMax])

theorem take_eq_cons_head {α : Type} (l : List α) (n : ℕ) (a : α)
    (t : List α) (h : l.take n = a :: t) : l.head? = some a := by
  cases l with
  | nil => rw [List.take_nil] at h; exact absurd h (by simp)
  | cons x xs =>
    cases n with
    | zero => exact absurd h (by simp)
    | succ n =>
      rw [List.take_succ_cons] at h
      injection h with h1 _
      rw [List.head?_cons, h1]

theorem if_append_pre {α : Type} {c : Prop} [Decidable c] (acc : List α)
    (x y : α) :
    ∃ r, (if c then (acc ++ [x]) ++ [y] else acc ++ [x]) = acc ++ r := by
  split_ifs with h
  · exact ⟨[x] ++ [y], by rw [List.append_assoc]⟩
  · exact ⟨[x], rfl⟩

theorem offspringLoop_take {f : ℕ → ℕ} {ps : ℕ} {mr : ℚ}
    {pop : List Melody} :
    ∀ (fuel : ℕ) (acc : List Melody) (k : ℕ) (out : List Melody × ℕ),
      offspringLoop f ps mr pop fuel acc k = some out →
      out.1.take acc.length = acc := by
  intro fuel
  induction fuel with
  | zero =>
    intro acc k out h
    simp only [offspringLoop, Option.some.injEq] at h
    rw [← h]
    exact List.take_length acc
  | succ fuel ih =>
    intro acc k out h
    simp only [offspringLoop] at h
    by_cases hlen : acc.length < ps
    · rw [if_pos hlen] at h
      rcases Option.bind_eq_some.mp h with ⟨s1, _, h⟩
      rcases Option.bind_eq_some.mp h with ⟨s2, _, h⟩
      obtain ⟨r, hr⟩ := if_append_pre
        (c := (acc ++ [(offspringStep f mr s1.1 s2.1 s2.2).1]).length < ps)
        acc (offspringStep f mr s1.1 s2.1 s2.2).1
        (offspringStep f mr s1.1 s2.1 s2.2).2.1
      rw [hr] at h
      have hih := ih _ _ _ h
      have hlen2 : acc.length ≤ (acc ++ r).length := by
        rw [List.length_append]; omega
      calc out.1.take acc.length
          = (out.1.take (acc ++ r).length).take acc.length := by
            rw [List.take_take, min_eq_left hlen2]
        _ = (acc ++ r).take acc.length := by rw [hih]
        _ = acc := List.take_left acc r
    · rw [if_neg hlen] at h
      simp only [Option.some.injEq] at h
      rw [← h]
      exact List.take_length acc

theorem evolve_state {lg : ℚ → ℚ} {f : ℕ → ℕ} {st st1 : GAState}
    {k k1 : ℕ} (hev : evolve lg f st k = some (st1, k1)) :
    st1.eliteSize = st.eliteSize ∧ st1.bestHist = st.bestHist ∧
      ∀ m ∈ st1.population, m.fitness = evaluate lg m.notes := by
  simp only [evolve] at hev
  by_cases hlen : st.eliteSize ≤ (List.insertionSort fitGE st.population).length
  · rw [if_pos hlen] at hev
    rcases Option.bind_eq_some.mp hev with ⟨r, _, hsome⟩
    simp only [Option.some.injEq, Prod.mk.injEq] at hsome
    obtain ⟨h1, _⟩ := hsome
    rw [← h1]
    refine ⟨rfl, rfl, ?_⟩
    intro m hm
    simp only [List.mem_map] at hm
    obtain ⟨x, _, rfl⟩ := hm
    rfl
  · rw [if_neg hlen] at hev
    exact absurd hev (by simp)

theorem evolve_best_le {lg : ℚ → ℚ} {f : ℕ → ℕ} {st st1 : GAState}
    {k k1 : ℕ} (he : 1 ≤ st.eliteSize)
    (hinv : ∀ m ∈ st.population, m.fitness = evaluate lg m.notes)
    (hev : evolve lg f st k = some (st1, k1)) {b b' : ℚ}
    (hb : pyListMax (st.population.map Melody.fitness) = some b)
    (hb' : pyListMax (st1.population.map Melody.fitness) = some b') :
    b ≤ b' := by
  simp only [evolve] at hev
  by_cases hlen : st.eliteSize ≤ (List.insertionSort fitGE st.population).length
  swap
  · rw [if_neg hlen] at hev
    exact absurd hev (by simp)
  rw [if_pos hlen] at hev
  rcases Option.bind_eq_some.mp hev with ⟨r, hoff, hsome⟩
  simp only [Option.some.injEq, Prod.mk.injEq] at hsome
  obtain ⟨h1, _⟩ := hsome
  -- the sorted population starts with a maximal-fitness individual
  have hpop_ne : st.population ≠ [] := by
    intro he'
    rw [he'] at hb
    exact absurd hb (by simp [pyListMax])
  have hperm := List.perm_insertionSort fitGE st.population
  have hsorted : List.Sorted fitGE (List.insertionSort fitGE st.population) :=
    List.sorted_insertionSort fitGE st.population
  have hsort_ne : List.insertionSort fitGE st.population ≠ [] := by
    intro he'
    have := hperm.length_eq
    rw [he'] at this
    exact hpop_ne (List.length_eq_zero.mp this.symm)
  obtain ⟨sh, stl, hcons⟩ := List.exists_cons_of_ne_nil hsort_ne
  have hsh_mem : sh ∈ st.population := by
    apply hperm.subset
    rw [hcons]
    exact List.mem_cons_self sh stl
  have hsh_max : ∀ y ∈ st.population, y.fitness ≤ sh.fitness := by
    intro y hy
    have hy' : y ∈ List.insertionSort fitGE st.population :=
      (hperm.mem_iff).mpr hy
    rw [hcons] at hy'
    rcases List.mem_cons.mp hy' with rfl | hy'
    · exact le_refl _
    · rw [hcons] at hsorted
      exact List.rel_of_sorted_cons hsorted y hy'
  have hb_le : b ≤ sh.fitness := by
    have hbm := pyListMax_mem hb
    simp only [List.mem_map] at hbm
    obtain ⟨y, hy, hyb⟩ := hbm
    rw [← hyb]
    exact hsh_max y hy
  -- the first elite is a copy of that individual and survives truncation
  obtain ⟨es, hes⟩ := Nat.exists_eq_add_of_le he
  have htake : (List.insertionSort fitGE st.population).take st.eliteSize =
      sh :: stl.take es := by
    rw [hcons, hes]
    rw [show 1 + es = es + 1 from by omega]
    exact List.take_succ_cons
  have helite : ((List.insertionSort fitGE st.population).take
      st.eliteSize).map Melody.copy = sh.copy :: (stl.take es).map Melody.copy := by
    rw [htake]
    rfl
  have hpre := offspringLoop_take _ _ _ _ hoff
  rw [helite] at hpre
  have hhead : r.1.head? = some sh.copy :=
    take_eq_cons_head r.1 _ sh.copy _ hpre
  -- the re-evaluated survivor keeps the previous best fitness
  have hne1 : st1.population ≠ [] := by
    intro he'
    rw [he'] at hb'
    exact absurd hb' (by simp [pyListMax])
  have htanil : r.1.take st.populationSize ≠ [] := by
    intro he'
    apply hne1
    rw [← h1]
    show (r.1.take st.populationSize).map _ = []
    rw [he']
    rfl
  have hps : 0 < st.populationSize := by
    rcases Nat.eq_zero_or_pos st.populationSize with h0 | hpos
    · exact absurd (by rw [h0]; rfl) htanil
    · exact hpos
  have hr_ne : r.1 ≠ [] := by
    intro he'
    exact htanil (by rw [he']; exact List.take_nil)
  obtain ⟨rh, rt, hrcons⟩ := List.exists_cons_of_ne_nil hr_ne
  have hrh : rh = sh.copy := by
    rw [hrcons] at hhead
    simp only [List.head?_cons, Option.some.injEq] at hhead
    exact hhead
  have hmem_take : sh.copy ∈ r.1.take st.populationSize := by
    rw [hrcons, ← hrh]
    obtain ⟨ps', hps'⟩ := Nat.exists_eq_add_of_lt hps
    rw [show st.populationSize = ps' + 1 from by omega]
    rw [List.take_succ_cons]
    exact List.mem_cons_self rh _
  have hmem1 : (⟨sh.copy.notes, evaluate lg sh.copy.notes⟩ : Melody) ∈
      st1.population := by
    rw [← h1]
    exact List.mem_map_of_mem _ hmem_take
  have hfit : (⟨sh.copy.notes, evaluate lg sh.copy.notes⟩ : Melody).fitness =
      sh.fitness := by
    show evaluate lg sh.copy.notes = sh.fitness
    rw [show sh.copy.notes = sh.notes from rfl]
    exact (hinv sh hsh_mem).symm
  have hle' : (⟨sh.copy.notes, evaluate lg sh.copy.notes⟩ : Melody).fitness ≤ b' :=
    pyListMax_ge hb' (List.mem_map_of_mem Melody.fitness hmem1)
  rw [hfit] at hle'
  exact le_trans hb_le hle'

theorem runLoop_mono (lg : ℚ → ℚ) (f : ℕ → ℕ) :
    ∀ (g : ℕ) (st : GAState) (k : ℕ) (res : GAState × ℕ),
      1 ≤ st.eliteSize →
      runLoop lg f g st k = some res →
      List.Chain' (· ≤ ·) st.bestHist →
      (st.bestHist = [] ∨
        ((∀ m ∈ st.population, m.fitness = evaluate lg m.notes) ∧
          ∃ b, pyListMax (st.population.map Melody.fitness) = some b ∧
            st.bestHist.getLast? = some b)) →
      List.Chain' (· ≤ ·) res.1.bestHist := by
  intro g
  induction g with
  | zero =>
    intro st k res he h hc _
    simp only [runLoop, Option.some.injEq] at h
    rw [← h]
    exact hc
  | succ g ih =>
    intro st k res he h hc hinv
    simp only [runLoop] at h
    rcases Option.bind_eq_some.mp h with ⟨r, hev, h⟩
    rcases Option.bind_eq_some.mp h with ⟨best, hbest, h⟩
    obtain ⟨hes, hbh, hpopinv⟩ :=
      evolve_state (show evolve lg f st k = some (r.1, r.2) from by
        rw [← hev])
    refine ih _ _ _ (by simpa [hes] using he) h ?_ ?_
    · -- the extended history stays a chain
      show List.Chain' (· ≤ ·) (r.1.bestHist ++ [best])
      rw [hbh]
      rcases hinv with hnil | ⟨hfit, b, hb, hlast⟩
      · rw [hnil]
        simp
      · rw [List.chain'_append]
        refine ⟨hc, List.chain'_singleton best, ?_⟩
        intro x hx y hy
        simp only [List.head?_cons, Option.mem_def, Option.some.injEq] at hy
        rw [hlast] at hx
        simp only [Option.mem_def, Option.some.injEq] at hx
        subst hx
        subst hy
        exact evolve_best_le he hfit
          (show evolve lg f st k = some (r.1, r.2) from by rw [← hev]) hb hbest
    · -- the history invariant is re-established
      right
      refine ⟨hpopinv, best, hbest, ?_⟩
      show (r.1.bestHist ++ [best]).getLast? = some best
      exact List.getLast?_concat _

/-- C9: elitism makes the recorded best-fitness sequence monotone
non-decreasing: for every run started on a fresh state (empty history)
with eliteSize ≥ 1 and a population of at least the tournament size 3,
if the run completes then consecutive entries of
`best_fitness_history` never decrease, because the top individuals are
copied into the next generation and the evaluator is a deterministic
function of the note sequence. -/
theorem claim_C9 (lg : ℚ → ℚ) (f : ℕ → ℕ) (st : GAState) (k : ℕ)
    (res : GAState × ℕ) (he : 1 ≤ st.eliteSize)
    (hp : 3 ≤ st.population.length) (hh : st.bestHist = [])
    (hrun : runGA lg f st k = some res) :
    ∀ g : ℕ, g + 1 < res.1.bestHist.length →
      res.1.bestHist.getD g 0 ≤ res.1.bestHist.getD (g + 1) 0 := by
  have hchain : List.Chain' (· ≤ ·) res.1.bestHist := by
    apply runLoop_mono lg f st.generations st k res he hrun
    · rw [hh]
      exact List.chain'_nil
    · exact Or.inl hh
  intro g hg
  have hgl : g < res.1.bestHist.length := by omega
  have h2 := List.chain'_iff_get.mp hchain g (by omega)
  rw [List.getD_eq_getElem _ _ hgl, List.getD_eq_getElem _ _ hg]
  simpa [List.get_eq_getElem] using h2

/-- Witness for C9: a concrete one-generation run over `demoPop`. -/
theorem claim_C9_witness :
    1 ≤ demoStart.eliteSize ∧ 3 ≤ demoStart.population.length ∧
    demoStart.bestHist = [] ∧
    ∃ res, runGA zeroLog zeroStream demoStart 0 = some res ∧
      ∀ g : ℕ, g + 1 < res.1.bestHist.length →
        res.1.bestHist.getD g 0 ≤ res.1.bestHist.getD (g + 1) 0 := by
  have hs : (runGA zeroLog zeroStream demoStart 0).isSome = true := by rfl
  refine ⟨by norm_num [demoStart], by norm_num [demoStart, demoPop], rfl,
    (runGA zeroLog zeroStream demoStart 0).get hs, (Option.some_get hs).symm, ?_⟩
  exact claim_C9 zeroLog zeroStream demoStart 0 _ (by norm_num [demoStart])
    (by norm_num [demoStart, demoPop]) rfl (Option.some_get hs).symm

/-- Witness for C4 at a concrete state. -/
theorem claim_C4_witness :
    (∀ g : ℕ, runLoop zeroLog zeroStream g demoStart 0 =
      runLoop zeroLog zeroStream g demoStart 0) ∧
    runGA zeroLog zeroStream demoStart 0 = runGA zeroLog zeroStream demoStart 0 ∧
    (∀ r1 r2, runGA zeroLog zeroStream demoStart 0 = some r1 →
      runGA zeroLog zeroStream demoStart 0 = some r2 →
      r1.1.bestHist = r2.1.bestHist ∧ r1.1.population = r2.1.population) :=
  claim_C4 zeroLog zeroStream zeroStream demoStart demoStart 0 0 rfl rfl rfl

end EvoMelody
